import Mathlib

/-!
Verification development for the AiosOS `ai-generate-plan` edge function.

The definitions below shallowly embed the TypeScript source of
`supabase/functions/ai-generate-plan/shared.ts` and the generate-plan
orchestrator (`generate_plan.ts`).  JavaScript runtime values are modelled by
the `Json` and `JNum` types; platform built-ins (`JSON.parse`, `Number`,
`String`, truthiness) are modelled by explicit Lean functions, each documented
at its definition.  Machine floats are modelled as exact rationals plus
explicit NaN / Infinity constructors; none of the theorems depend on float
rounding.  Strings are processed as lists of characters.
-/

/-- Model of a JavaScript number: NaN, signed Infinity, or a finite value
(modelled as an exact rational; float rounding is not modelled and no theorem
depends on it). -/
inductive JNum where
  | nan : JNum
  | inf : Bool → JNum
  | fin : ℚ → JNum
deriving DecidableEq, Repr

/-- Model of a JSON / JavaScript structured value as produced by `JSON.parse`. -/
inductive Json where
  | null : Json
  | bool : Bool → Json
  | num : JNum → Json
  | str : String → Json
  | arr : List Json → Json
  | obj : List (String × Json) → Json
deriving Repr

/-- JavaScript truthiness of a value (`if (v)`): `null`, `false`, `0`, `NaN`
and the empty string are falsy; every object and array is truthy. -/
def Json.truthy : Json → Bool
  | .null => false
  | .bool b => b
  | .num .nan => false
  | .num (.inf _) => true
  | .num (.fin q) => q ≠ 0
  | .str s => s ≠ ""
  | .arr _ => true
  | .obj _ => true

/-- The ASCII apostrophe character. -/
def apos : Char := Char.ofNat 39

/-- Left curly double quote. -/
def lDouble : Char := Char.ofNat 8220

/-- Right curly double quote. -/
def rDouble : Char := Char.ofNat 8221

/-- Left curly single quote. -/
def lSingle : Char := Char.ofNat 8216

/-- Right curly single quote. -/
def rSingle : Char := Char.ofNat 8217

/-- Model of the JavaScript regular-expression class `\s` (also used by
`String.prototype.trim`): ASCII whitespace plus the Unicode space
characters. -/
def jsWS (c : Char) : Bool :=
  c = ' ' || c = Char.ofNat 9 || c = Char.ofNat 10 || c = Char.ofNat 11 ||
  c = Char.ofNat 12 || c = Char.ofNat 13 || c = Char.ofNat 160 ||
  c = Char.ofNat 5760 || (8192 ≤ c.toNat && c.toNat ≤ 8202) ||
  c = Char.ofNat 8232 || c = Char.ofNat 8233 || c = Char.ofNat 8239 ||
  c = Char.ofNat 8287 || c = Char.ofNat 12288 || c = Char.ofNat 65279

/-- Drop trailing characters satisfying `p`. -/
def dropTrailing (p : Char → Bool) (l : List Char) : List Char :=
  (l.reverse.dropWhile p).reverse

/-- Model of `String.prototype.trim` on a character list. -/
def trimL (l : List Char) : List Char :=
  dropTrailing jsWS (l.dropWhile jsWS)

theorem length_dropWhile_le (p : Char → Bool) (l : List Char) :
    (l.dropWhile p).length ≤ l.length := by
  induction l with
  | nil => simp [List.dropWhile]
  | cons c rest ih =>
    by_cases h : p c
    · simp only [List.dropWhile, h]
      exact Nat.le_succ_of_le ih
    · simp [List.dropWhile, h]

/-- Scanner for `replace(/\s+/g, " ")`: `prevWS` records whether the
previous character was whitespace (in which case further whitespace is part
of the same run and dropped). -/
def collapseGo : Bool → List Char → List Char
  | _, [] => []
  | prevWS, c :: rest =>
    if jsWS c then
      if prevWS then collapseGo true rest
      else ' ' :: collapseGo true rest
    else c :: collapseGo false rest

/-- Model of `replace(/\s+/g, " ")`: every maximal run of whitespace becomes a
single ASCII space. -/
def collapseWS (l : List Char) : List Char := collapseGo false l

/-- Decimal digit character for a digit value. -/
def digitCh (d : Nat) : Char :=
  match d with
  | 0 => '0' | 1 => '1' | 2 => '2' | 3 => '3' | 4 => '4'
  | 5 => '5' | 6 => '6' | 7 => '7' | 8 => '8' | _ => '9'

/-- Fuel-indexed digit accumulator for decimal rendering (the fuel strictly
dominates the argument, so it never runs out). -/
def natDecGo : Nat → Nat → List Char
  | 0, _ => []
  | fuel + 1, n =>
    if n < 10 then [digitCh n]
    else natDecGo fuel (n / 10) ++ [digitCh (n % 10)]

/-- Decimal rendering of a natural number as a character list; models the
JavaScript number-to-string conversion used by template literals such as
`step_${i}` (for the nonnegative integers that occur there). -/
def natDecL (n : Nat) : List Char := natDecGo (n + 1) n

/-- Decimal rendering of a natural number as a string. -/
def natDec (n : Nat) : String := ⟨natDecL n⟩

/-- Value of a digit-character list read as a decimal numeral. -/
def valD (l : List Char) : Nat :=
  l.foldl (fun a c => 10 * a + (c.toNat - 48)) 0

theorem valD_append (l : List Char) (c : Char) :
    valD (l ++ [c]) = 10 * valD l + (c.toNat - 48) := by
  simp [valD, List.foldl_append]

theorem digitCh_toNat {d : Nat} (h : d < 10) : (digitCh d).toNat - 48 = d := by
  interval_cases d <;> decide

theorem valD_natDecGo (fuel n : Nat) (hf : n < fuel) :
    valD (natDecGo fuel n) = n := by
  induction fuel generalizing n with
  | zero => omega
  | succ fuel ih =>
    rw [natDecGo]
    by_cases h : n < 10
    · rw [if_pos h]
      show valD ([] ++ [digitCh n]) = n
      rw [valD_append, digitCh_toNat h]
      simp [valD]
    · have hd : n / 10 < fuel := by
        have h2 : n / 10 < n := Nat.div_lt_self (by omega) (by omega)
        omega
      rw [if_neg h, valD_append, ih (n / 10) hd,
        digitCh_toNat (Nat.mod_lt _ (by omega))]
      omega

theorem valD_natDecL (n : Nat) : valD (natDecL n) = n :=
  valD_natDecGo (n + 1) n (Nat.lt_succ_self n)

theorem natDecL_inj : Function.Injective natDecL := by
  intro a b h
  have := valD_natDecL a
  rw [h, valD_natDecL] at this
  omega

theorem natDec_inj : Function.Injective natDec := by
  intro a b h
  exact natDecL_inj (congrArg String.data h)

/-- Decimal rendering of an integer. -/
def intDec (i : Int) : String :=
  if i < 0 then "-" ++ natDec i.natAbs else natDec i.natAbs

/-- Model of the JavaScript number-to-string conversion.  Integers are
rendered in decimal exactly as JavaScript does; the rendering of non-integer
rationals is an approximation of the float decimal form (no theorem in this
file evaluates it on a non-integer). -/
def numToString : JNum → String
  | .nan => "NaN"
  | .inf true => "Infinity"
  | .inf false => "-Infinity"
  | .fin q => if q.den = 1 then intDec q.num
              else intDec q.num ++ "/" ++ natDec q.den

mutual

/-- Model of the JavaScript `String(v)` coercion. -/
def jsToString : Json → String
  | .null => "null"
  | .bool b => cond b "true" "false"
  | .num n => numToString n
  | .str s => s
  | .obj _ => "[object Object]"
  | .arr xs => arrToString xs

/-- Model of `Array.prototype.toString` (comma-joined elements; `null`
elements render as the empty string). -/
def arrToString : List Json → String
  | [] => ""
  | x :: rest =>
    let hd := match x with
      | .null => ""
      | y => jsToString y
    match rest with
    | [] => hd
    | _ => hd ++ "," ++ arrToString rest

end

/-- Whitespace accepted by the JSON grammar. -/
def jsonWS (c : Char) : Bool :=
  c = ' ' || c = Char.ofNat 9 || c = Char.ofNat 10 || c = Char.ofNat 13

/-- Parse one-or-more decimal digits; returns their value and count. -/
def takeDigits (l : List Char) : Option (Nat × Nat × List Char) :=
  let ds := l.takeWhile Char.isDigit
  if ds = [] then none else some (valD ds, ds.length, l.drop ds.length)

/-- Parse the optional exponent part of a JSON / JavaScript number literal,
scaling `q` accordingly. -/
def parseExp (q : ℚ) (l : List Char) : Option (ℚ × List Char) :=
  match l with
  | c :: r =>
    if c = 'e' || c = 'E' then
      let (neg, r') := match r with
        | '-' :: r2 => (true, r2)
        | '+' :: r2 => (false, r2)
        | _ => (false, r)
      match takeDigits r' with
      | some (e, _, rest) =>
        some (if neg then q / (10 : ℚ) ^ e else q * (10 : ℚ) ^ e, rest)
      | none => none
    else some (q, l)
  | [] => some (q, l)

/-- Parse the fraction-and-exponent tail of a number literal whose integer
part has value `ip`. -/
def parseFracExp (ip : Nat) (l : List Char) : Option (ℚ × List Char) :=
  match l with
  | '.' :: r =>
    match takeDigits r with
    | some (fv, fn, rest) =>
      parseExp ((ip : ℚ) + (fv : ℚ) / (10 : ℚ) ^ fn) rest
    | none => none
  | _ => parseExp (ip : ℚ) l

/-- Parse an unsigned JSON number literal (leading zeros rejected, as by
`JSON.parse`). -/
def parseJsonNum (l : List Char) : Option (ℚ × List Char) :=
  match l with
  | '0' :: r =>
    match r with
    | c :: _ => if c.isDigit then none else parseFracExp 0 r
    | [] => parseFracExp 0 r
  | c :: _ =>
    if c.isDigit then
      match takeDigits l with
      | some (ip, _, rest) => parseFracExp ip rest
      | none => none
    else none
  | [] => none

/-- Hexadecimal digit value. -/
def hexVal (c : Char) : Option Nat :=
  if c.isDigit then some (c.toNat - 48)
  else if 97 ≤ c.toNat && c.toNat ≤ 102 then some (c.toNat - 87)
  else if 65 ≤ c.toNat && c.toNat ≤ 70 then some (c.toNat - 55)
  else none

/-- Parse the body of a JSON string literal (after the opening quote).
Surrogate-pair recombination is not modelled.  Returns the decoded
characters and the input past the closing quote. -/
def parseStrBody (fuel : Nat) (l : List Char) (acc : List Char) :
    Option (String × List Char) :=
  match fuel with
  | 0 => none
  | fuel + 1 =>
    match l with
    | [] => none
    | '"' :: rest => some (⟨acc.reverse⟩, rest)
    | '\\' :: e :: rest =>
      match e with
      | '"' => parseStrBody fuel rest ('"' :: acc)
      | '\\' => parseStrBody fuel rest ('\\' :: acc)
      | '/' => parseStrBody fuel rest ('/' :: acc)
      | 'b' => parseStrBody fuel rest (Char.ofNat 8 :: acc)
      | 'f' => parseStrBody fuel rest (Char.ofNat 12 :: acc)
      | 'n' => parseStrBody fuel rest (Char.ofNat 10 :: acc)
      | 'r' => parseStrBody fuel rest (Char.ofNat 13 :: acc)
      | 't' => parseStrBody fuel rest (Char.ofNat 9 :: acc)
      | 'u' =>
        match rest with
        | h1 :: h2 :: h3 :: h4 :: rest' =>
          match hexVal h1, hexVal h2, hexVal h3, hexVal h4 with
          | some a, some b, some c, some d =>
            parseStrBody fuel rest'
              (Char.ofNat (((a * 16 + b) * 16 + c) * 16 + d) :: acc)
          | _, _, _, _ => none
        | _ => none
      | _ => none
    | c :: rest =>
      if c.toNat < 32 then none else parseStrBody fuel rest (c :: acc)

/-- Insert a key/value pair into an object field list, overwriting an
existing binding of the same key (`JSON.parse` keeps the last duplicate). -/
def insertKV (fields : List (String × Json)) (k : String) (v : Json) :
    List (String × Json) :=
  match fields with
  | [] => [(k, v)]
  | (k', v') :: rest =>
    if k' = k then (k, v) :: rest else (k', v') :: insertKV rest k v

mutual

/-- Fuel-indexed model of `JSON.parse` on a character list: parses one JSON
value and returns the unconsumed input. -/
def parseV (fuel : Nat) (l : List Char) : Option (Json × List Char) :=
  match fuel with
  | 0 => none
  | fuel + 1 =>
    match l.dropWhile jsonWS with
    | 'n' :: 'u' :: 'l' :: 'l' :: r => some (.null, r)
    | 't' :: 'r' :: 'u' :: 'e' :: r => some (.bool true, r)
    | 'f' :: 'a' :: 'l' :: 's' :: 'e' :: r => some (.bool false, r)
    | '"' :: r =>
      match parseStrBody (r.length + 1) r [] with
      | some (s, rest) => some (.str s, rest)
      | none => none
    | '[' :: r =>
      (match (r.dropWhile jsonWS) with
       | ']' :: rest => some (.arr [], rest)
       | _ => parseArrItems fuel r [])
    | '{' :: r =>
      (match (r.dropWhile jsonWS) with
       | '}' :: rest => some (.obj [], rest)
       | _ => parseObjItems fuel r [])
    | '-' :: r =>
      match parseJsonNum r with
      | some (q, rest) => some (.num (.fin (-q)), rest)
      | none => none
    | l' =>
      match parseJsonNum l' with
      | some (q, rest) => some (.num (.fin q), rest)
      | none => none

/-- Parse the remaining comma-separated items of a JSON array. -/
def parseArrItems (fuel : Nat) (l : List Char) (acc : List Json) :
    Option (Json × List Char) :=
  match fuel with
  | 0 => none
  | fuel + 1 =>
    match parseV fuel l with
    | some (v, rest) =>
      match rest.dropWhile jsonWS with
      | ',' :: r2 => parseArrItems fuel r2 (v :: acc)
      | ']' :: r2 => some (.arr (v :: acc).reverse, r2)
      | _ => none
    | none => none

/-- Parse the remaining comma-separated members of a JSON object. -/
def parseObjItems (fuel : Nat) (l : List Char) (acc : List (String × Json)) :
    Option (Json × List Char) :=
  match fuel with
  | 0 => none
  | fuel + 1 =>
    match l.dropWhile jsonWS with
    | '"' :: r =>
      match parseStrBody (r.length + 1) r [] with
      | some (k, rest) =>
        match rest.dropWhile jsonWS with
        | ':' :: r2 =>
          match parseV fuel r2 with
          | some (v, r3) =>
            match r3.dropWhile jsonWS with
            | ',' :: r4 => parseObjItems fuel r4 (insertKV acc k v)
            | '}' :: r4 => some (.obj (insertKV acc k v), r4)
            | _ => none
          | none => none
        | _ => none
      | none => none
    | _ => none

end

/-- Model of the JavaScript built-in `JSON.parse`.  A throw is modelled as
`none`.  Inputs nested deeper than the fuel bound also return `none`; no
theorem in this file exercises that regime.  Float overflow of huge number
literals to `Infinity` is not modelled (numbers stay exact rationals). -/
def jsParse (s : String) : Option Json :=
  match parseV (4 * s.data.length + 16) s.data with
  | some (v, rest) => if rest.dropWhile jsonWS = [] then some v else none
  | none => none

/-- Model of the JavaScript `Number(string)` coercion: trimmed empty string
is `0`; signed `Infinity` and decimal literals are recognized; anything else
is `NaN`.  (Hex / octal / binary literals are not modelled; no theorem uses
them.) -/
def strToNumber (s : String) : JNum :=
  let t := trimL s.data
  if t = [] then .fin 0
  else
    let (neg, t') := match t with
      | '-' :: r => (true, r)
      | '+' :: r => (false, r)
      | _ => (false, t)
    match t' with
    | 'I' :: 'n' :: 'f' :: 'i' :: 'n' :: 'i' :: 't' :: 'y' :: r =>
      if r = [] then .inf (!neg) else .nan
    | _ =>
      -- `Number` accepts literals like ".5" and "12.", unlike `JSON.parse`
      match numLit t' with
      | some q => .fin (if neg then -q else q)
      | none => .nan
where
  /-- A JavaScript decimal number literal: digits, optional fraction,
  optional exponent; also accepts a leading or trailing dot. -/
  numLit (l : List Char) : Option ℚ :=
    let ip := l.takeWhile Char.isDigit
    let r1 := l.drop ip.length
    match r1 with
    | '.' :: r2 =>
      let fp := r2.takeWhile Char.isDigit
      let r3 := r2.drop fp.length
      if ip = [] ∧ fp = [] then none
      else
        match parseExp ((valD ip : ℚ) + (valD fp : ℚ) / (10 : ℚ) ^ fp.length) r3 with
        | some (q, rest) => if rest = [] then some q else none
        | none => none
    | _ =>
      if ip = [] then none
      else
        match parseExp (valD ip : ℚ) r1 with
        | some (q, rest) => if rest = [] then some q else none
        | none => none

/-- Model of the JavaScript `Number(v)` coercion on structured values. -/
def jsToNumber : Json → JNum
  | .null => .fin 0
  | .bool b => .fin (cond b 1 0)
  | .num n => n
  | .str s => strToNumber s
  | .arr xs => strToNumber (jsToString (.arr xs))
  | .obj _ => .nan

/-- Field lookup modelling the JavaScript optional chain `v?.k`: `none` for
a missing field or a non-object receiver (JavaScript `undefined`). -/
def jsGet (v : Json) (k : String) : Option Json :=
  match v with
  | .obj fields => fields.lookup k
  | _ => none

/-- Model of the JavaScript nullish coalescing `x ?? d` where `x` is an
optional field access: both `undefined` (missing) and `null` fall through to
the default. -/
def jsCoalesce (o : Option Json) (d : Json) : Json :=
  match o with
  | some .null => d
  | some v => v
  | none => d

/-- Model of `Math.trunc` (round toward zero) on a finite value. -/
def jsTrunc (q : ℚ) : Int := if 0 ≤ q then ⌊q⌋ else ⌈q⌉

/-- Embedding of `clampInt` (shared.ts:50-53): a non-finite argument returns
the lower bound, otherwise the truncated value is clamped into the range. -/
def clampInt (n : JNum) (lo hi : Int) : Int :=
  match n with
  | .fin q => min hi (max lo (jsTrunc q))
  | _ => lo

/-- ASCII model of `String.prototype.toLowerCase` on a character list. -/
def lowerL (l : List Char) : List Char := l.map Char.toLower

/-- The comparison string `String(v ?? "").toLowerCase().trim()` computed by
`normalizePriority`. -/
def priorityString (v : Option Json) : String :=
  ⟨trimL (lowerL (jsToString (jsCoalesce v (Json.str ""))).data)⟩

/-- Embedding of `normalizePriority` (shared.ts:55-59).  The argument is the
(possibly missing) `priority` field. -/
def normalizePriority (v : Option Json) : String :=
  let s := priorityString v
  if s = "low" ∨ s = "medium" ∨ s = "high" then s else "medium"

/-- Word character of the JavaScript regular-expression class `\w`. -/
def isWordChar (c : Char) : Bool :=
  ('a' ≤ c && c ≤ 'z') || ('A' ≤ c && c ≤ 'Z') || c.isDigit || c = '_'

/-- A `\b` word boundary holds after a word character iff the next character
is not a word character (or the input ends). -/
def wordBoundaryAfter (l : List Char) : Bool :=
  match l with
  | [] => true
  | c :: _ => !isWordChar c

/-- Case-insensitive literal match of `w` at the head of `l` followed by a
word boundary. -/
def matchWordCI (w : List Char) (l : List Char) : Bool :=
  lowerL (l.take w.length) = w && wordBoundaryAfter (l.drop w.length)

/-- Attempt to match the tail of the garbage-token pattern
`/'\s*(end-user|thelived|ty)\b/gi` (cleanText, shared.ts:69) at the position
just after an apostrophe.  Alternatives are tried in the regular-expression
order.  Returns the number of characters consumed after the apostrophe. -/
def tryGarbage (l : List Char) : Option Nat :=
  let nws := (l.takeWhile jsWS).length
  let r := l.drop nws
  if matchWordCI "end-user".data r then some (nws + 8)
  else if matchWordCI "thelived".data r then some (nws + 8)
  else if matchWordCI "ty".data r then some (nws + 2)
  else none

theorem length_takeWhile_le (p : Char → Bool) (l : List Char) :
    (l.takeWhile p).length ≤ l.length := by
  induction l with
  | nil => simp [List.takeWhile]
  | cons c rest ih =>
    by_cases h : p c
    · simp only [List.takeWhile, h]
      exact Nat.succ_le_succ ih
    · simp [List.takeWhile, h]

theorem matchWordCI_length {w l : List Char} (h : matchWordCI w l = true) :
    w.length ≤ l.length := by
  unfold matchWordCI at h
  have h1 := of_decide_eq_true ((Bool.and_eq_true _ _).mp h).1
  have := congrArg List.length h1
  simp only [lowerL, List.length_map, List.length_take] at this
  omega

/-- Fuel-indexed scanner for the garbage-token removal pass.  The fuel only
ever pads the input length, so the base case is unreachable. -/
def stripGarbageGo : Nat → List Char → List Char
  | 0, l => l
  | _, [] => []
  | fuel + 1, c :: rest =>
    if c = apos then
      match tryGarbage rest with
      | some n => stripGarbageGo fuel (rest.drop n)
      | none => c :: stripGarbageGo fuel rest
    else c :: stripGarbageGo fuel rest

/-- The garbage-token removal pass of `cleanText` (shared.ts:69): a global
left-to-right scan removing each match of `/'\s*(end-user|thelived|ty)\b/gi`
and resuming after it. -/
def stripGarbage (l : List Char) : List Char := stripGarbageGo (l.length + 1) l

/-- Terminal punctuation recognized by `cleanText` (the class `[.!?]`). -/
def isTermPunct (c : Char) : Bool := c = '.' || c = '!' || c = '?'

/-- Does the text end in terminal punctuation? -/
def endsPunct (l : List Char) : Bool :=
  match l.getLast? with
  | some c => isTermPunct c
  | none => false

/-- Model of `t.lastIndexOf(" ", m)`: the largest index `i ≤ m` holding a
space, if any. -/
def lastSpaceLE (l : List Char) : Nat → Option Nat
  | 0 => if l[0]? = some ' ' then some 0 else none
  | m + 1 => if l[m + 1]? = some ' ' then some (m + 1) else lastSpaceLE l m

/-- The length-truncation step of `cleanText` (shared.ts:72-75), applied when
the text exceeds `maxLen`. -/
def cutAt (t : List Char) (maxLen : Nat) : List Char :=
  match lastSpaceLE t maxLen with
  | some i => if 20 < i then trimL (t.take i) else trimL (t.take maxLen)
  | none => trimL (t.take maxLen)

/-- The truncation-and-punctuation tail of `cleanText` (shared.ts:72-78). -/
def finishClean (t : List Char) (maxLen : Nat) : List Char :=
  let t2 := if maxLen < t.length then cutAt t maxLen else t
  if t2 = [] then t2 else if endsPunct t2 then t2 else t2 ++ ['.']

/-- Curly-quote normalization of `cleanText` (shared.ts:64-65). -/
def mapQuote (c : Char) : Char :=
  if c = lDouble ∨ c = rDouble then '"'
  else if c = lSingle ∨ c = rSingle then apos
  else c

/-- The normalization pipeline of `cleanText` before truncation
(shared.ts:62-70): collapse whitespace, normalize quotes, trim, remove
garbage tokens, collapse and trim again. -/
def coreNorm (s : List Char) : List Char :=
  trimL (collapseWS (stripGarbage (trimL ((collapseWS s).map mapQuote))))

/-- Embedding of `cleanText` (shared.ts:61-79) on character lists. -/
def cleanTextL (s : List Char) (maxLen : Nat) : List Char :=
  finishClean (coreNorm s) maxLen

/-- Embedding of `cleanText` (shared.ts:61-79). -/
def cleanText (s : String) (maxLen : Nat) : String :=
  ⟨cleanTextL s.data maxLen⟩

/-- One scan pass of `replace(/```json\s*/gi, "")` (stripFences,
shared.ts:84-86): each occurrence of three backticks, `json` in any case and
trailing whitespace is removed; scanning resumes after the match. -/
def stripJsonFenceGo : Nat → List Char → List Char
  | 0, l => l
  | fuel + 1, l =>
    match l with
    | '`' :: '`' :: '`' :: a :: b :: c :: d :: r =>
      if lowerL [a, b, c, d] = "json".data then
        stripJsonFenceGo fuel (r.dropWhile jsWS)
      else '`' :: stripJsonFenceGo fuel ('`' :: '`' :: a :: b :: c :: d :: r)
    | c :: rest => c :: stripJsonFenceGo fuel rest
    | [] => []

/-- Entry point of the `/```json\s*/gi` pass with sufficient fuel. -/
def stripJsonFenceL (l : List Char) : List Char :=
  stripJsonFenceGo (l.length + 1) l

/-- The scan pass of `replace(/```/g, "")`. -/
def stripTicksL : List Char → List Char
  | '`' :: '`' :: '`' :: r => stripTicksL r
  | c :: rest => c :: stripTicksL rest
  | [] => []

/-- Embedding of `stripFences` (shared.ts:84-86). -/
def stripFences (s : String) : String :=
  ⟨trimL (stripTicksL (stripJsonFenceL s.data))⟩

/-- Embedding of `maybeTruncatedJSON` (shared.ts:88-94).  Note that the code
tests whether the text ends with either closer, not with the closer matching
the opener. -/
def maybeTruncatedJSON (s : String) : Bool :=
  let t := trimL s.data
  if t = [] then true
  else
    let startsJSON := t.head? = some '{' || t.head? = some '['
    let endsJSON := t.getLast? = some '}' || t.getLast? = some ']'
    startsJSON && !endsJSON

/-- First index of `c` in `l` (`String.prototype.indexOf`). -/
def firstIdx (l : List Char) (c : Char) : Option Nat :=
  l.findIdx? (· = c)

/-- Last index of `c` in `l` (`String.prototype.lastIndexOf`). -/
def lastIdx (l : List Char) (c : Char) : Option Nat :=
  match l.reverse.findIdx? (· = c) with
  | some i => some (l.length - 1 - i)
  | none => none

/-- The `indexOf`/`lastIndexOf`/`slice` candidate-extraction step of
`tryParseJSON` (shared.ts:105-119): the substring from the first opener to
the last closer, provided both exist in that order. -/
def sliceBetween (l : List Char) (op cl : Char) : Option String :=
  match firstIdx l op, lastIdx l cl with
  | some fb, some lb =>
    if fb < lb then some ⟨(l.drop fb).take (lb + 1 - fb)⟩ else none
  | _, _ => none

/-- Embedding of `tryParseJSON` (shared.ts:96-122), parametric in the model
`parse` of the platform `JSON.parse` (a throw is `none`, so the try/catch
chain becomes a fallback chain).  Empty input returns `none` (`if (!raw)`);
the heuristic truncation check short-circuits; otherwise a direct parse is
attempted, then the first-brace/last-brace substring, then the
first-bracket/last-bracket substring. -/
def tryParseJSON (parse : String → Option Json) (raw : String) : Option Json :=
  if raw = "" then none
  else
    let stripped := stripFences raw
    if maybeTruncatedJSON stripped then none
    else
      match parse stripped with
      | some v => some v
      | none =>
        match (sliceBetween stripped.data '{' '}').bind parse with
        | some v => some v
        | none => (sliceBetween stripped.data '[' ']').bind parse

/-- The parameter record of `callJSON` / `callJSONStream`
(shared.ts:181-191, 349-362).  A missing `requiredKeys` is the empty list. -/
structure CallJSONParams where
  ollamaUrl : String
  model : String
  prompt : String
  num_predict : Int
  timeoutMs : Int
  repairModel : String
  repairNumPredict : Int
  repairTimeoutMs : Int
  requiredKeys : List String
deriving Repr

/-- The request a call to `ollamaChat` / `ollamaChatStream` sends upstream. -/
structure ChatReq where
  ollamaUrl : String
  model : String
  prompt : String
  num_predict : Int
  timeoutMs : Int
deriving Repr

/-- The primary generation request of `callJSON` / `callJSONStream`. -/
def primaryReq (p : CallJSONParams) : ChatReq :=
  ⟨p.ollamaUrl, p.model, p.prompt, p.num_predict, p.timeoutMs⟩

/-- The repair prompt built by `callJSON` (shared.ts:208-218) around the
malformed primary output. -/
def repairPromptOf (p : CallJSONParams) (a1 : String) : String :=
  let keysLine :=
    if p.requiredKeys ≠ [] then
      "Fix the JSON so it parses and contains these keys:\n"
        ++ String.intercalate ", " p.requiredKeys ++ "."
    else "Fix the JSON so it parses."
  "Return ONLY corrected MINIFIED JSON on one line.\nNo extra keys. No markdown.\n\n"
    ++ keysLine ++ "\n\nMALFORMED OUTPUT:\n" ++ a1

/-- The repair request of `callJSON` (shared.ts:220-226). -/
def repairReq (p : CallJSONParams) (a1 : String) : ChatReq :=
  ⟨p.ollamaUrl, p.repairModel, repairPromptOf p a1, p.repairNumPredict,
    p.repairTimeoutMs⟩

/-- The repair prompt built by `callJSONStream` (shared.ts:389-398); its
keys line is joined by a space instead of a newline. -/
def repairPromptStreamOf (p : CallJSONParams) (raw1 : String) : String :=
  let keysLine :=
    if p.requiredKeys ≠ [] then
      "Fix the JSON so it parses and contains these keys: "
        ++ String.intercalate ", " p.requiredKeys ++ "."
    else "Fix the JSON so it parses."
  "Return ONLY corrected MINIFIED JSON on one line.\nNo extra keys. No markdown.\n"
    ++ keysLine ++ "\n\nMALFORMED OUTPUT:\n" ++ raw1

/-- The repair request of `callJSONStream` (shared.ts:400-406). -/
def repairReqStream (p : CallJSONParams) (raw1 : String) : ChatReq :=
  ⟨p.ollamaUrl, p.repairModel, repairPromptStreamOf p raw1, p.repairNumPredict,
    p.repairTimeoutMs⟩

/-- The JavaScript truthiness test `if (p1)` applied to the result of
`tryParseJSON` (which conflates a parse failure with a parsed falsy value):
keeps the value only when it is truthy. -/
def truthyFilter (o : Option Json) : Option Json :=
  match o with
  | some v => if v.truthy then some v else none
  | none => none

/-- Model of `.slice(0, 500)`. -/
def take500 (s : String) : String := ⟨s.data.take 500⟩

/-- Embedding of `callJSON` (shared.ts:181-232).  The upstream service is
abstracted as an oracle `chat` mapping the sequence number of the call and
the request to the transport-level outcome (an `ollamaChat` throw is
`Except.error`).  The result is paired with the number of upstream
generation calls issued. -/
def callJSON (parse : String → Option Json)
    (chat : Nat → ChatReq → Except String String) (p : CallJSONParams) :
    Except String Json × Nat :=
  match chat 0 (primaryReq p) with
  | .error e => (.error e, 1)
  | .ok a1 =>
    match truthyFilter (tryParseJSON parse a1) with
    | some v => (.ok v, 1)
    | none =>
      match chat 1 (repairReq p a1) with
      | .error e => (.error e, 2)
      | .ok r =>
        match truthyFilter (tryParseJSON parse r) with
        | some v => (.ok v, 2)
        | none =>
          (.error ("Model returned non-JSON after attempt+repair. A1="
            ++ take500 a1 ++ " | R=" ++ take500 r), 2)

/-- Embedding of `callJSONStream` (shared.ts:349-412).  The primary
streaming call is abstracted by the same oracle (its outcome is the full
concatenated text returned by `ollamaChatStream`); per-token delivery is
modelled separately by `ollamaChatStreamModel`.  Returns the
`{ parsed, raw }` pair and the number of upstream generation calls. -/
def callJSONStream (parse : String → Option Json)
    (chat : Nat → ChatReq → Except String String) (p : CallJSONParams) :
    Except String (Json × String) × Nat :=
  match chat 0 (primaryReq p) with
  | .error e => (.error e, 1)
  | .ok raw1 =>
    match truthyFilter (tryParseJSON parse raw1) with
    | some v => (.ok (v, raw1), 1)
    | none =>
      match chat 1 (repairReqStream p raw1) with
      | .error e => (.error e, 2)
      | .ok raw2 =>
        match truthyFilter (tryParseJSON parse raw2) with
        | some v => (.ok (v, raw2), 2)
        | none =>
          (.error ("Model returned non-JSON after attempt+repair. A1="
            ++ take500 raw1 ++ " | R=" ++ take500 raw2), 2)

/-- Split a buffer at its first newline (`buf.indexOf("\n")`), returning the
line before it and the remainder after it. -/
def splitFirstLine : List Char → Option (List Char × List Char)
  | [] => none
  | c :: r =>
    if c = Char.ofNat 10 then some ([], r)
    else
      match splitFirstLine r with
      | some (line, rest) => some (c :: line, rest)
      | none => none

theorem splitFirstLine_length {l line rest : List Char}
    (h : splitFirstLine l = some (line, rest)) : rest.length < l.length := by
  induction l generalizing line rest with
  | nil => simp [splitFirstLine] at h
  | cons c r ih =>
    unfold splitFirstLine at h
    by_cases hc : c = Char.ofNat 10
    · rw [if_pos hc] at h
      cases h
      simp
    · rw [if_neg hc] at h
      cases hr : splitFirstLine r with
      | none => rw [hr] at h; cases h
      | some p =>
        obtain ⟨line', rest'⟩ := p
        rw [hr] at h
        cases h
        have := ih hr
        simp only [List.length_cons]
        omega

/-- The truthiness test `if (obj?.done)` on a decoded record. -/
def doneFlag (obj : Json) : Bool :=
  match jsGet obj "done" with
  | some v => v.truthy
  | none => false

/-- The content delta `obj?.message?.content ?? ""` of a decoded record. -/
def deltaOf (obj : Json) : Json :=
  jsCoalesce ((jsGet obj "message").bind (fun m => jsGet m "content")) (.str "")

/-- The inner line-splitting loop of `ollamaChatStream` (shared.ts:311-334):
consume complete lines from the buffer, parse each as JSON (malformed lines
are ignored), forward each truthy content delta, and stop — leaving the rest
of the buffer in place — when a record's `done` field is truthy (the `break`
exits only this inner loop).  Returns the remaining buffer, the accumulated
text and the forwarded-token list. -/
def procLinesGo : Nat → List Char → String → List String →
    List Char × String × List String
  | 0, buf, full, tokens => (buf, full, tokens)
  | fuel + 1, buf, full, tokens =>
    match splitFirstLine buf with
    | none => (buf, full, tokens)
    | some (rawLine, buf') =>
      let line := trimL rawLine
      if line = [] then procLinesGo fuel buf' full tokens
      else
        match jsParse ⟨line⟩ with
        | none => procLinesGo fuel buf' full tokens
        | some obj =>
          let d := deltaOf obj
          let full' := if d.truthy then full ++ jsToString d else full
          let tokens' := if d.truthy then tokens ++ [jsToString d] else tokens
          if doneFlag obj then (buf', full', tokens')
          else procLinesGo fuel buf' full' tokens'

/-- Entry point of the inner line loop with sufficient fuel (the buffer
shrinks at every step, so the fuel never runs out). -/
def procLines (buf : List Char) (full : String) (tokens : List String) :
    List Char × String × List String :=
  procLinesGo (buf.length + 1) buf full tokens

/-- Embedding of the read-and-decode loop of `ollamaChatStream`
(shared.ts:300-337).  The response body is modelled as the list of decoded
text chunks successive `reader.read()` calls deliver (byte-level chunk
boundaries inside a character are not modelled).  Faithful to the source,
the `done` signal seen by the inner loop does NOT stop the outer read loop:
the remaining buffer is kept and processing resumes when the next chunk
arrives.  Returns the accumulated text and the `onToken` call sequence. -/
def ollamaChatStream (chunks : List String) : String × List String :=
  go chunks [] "" []
where
  go : List String → List Char → String → List String → String × List String
  | [], _buf, full, tokens => (full, tokens)
  | ch :: rest, buf, full, tokens =>
    let r := procLines (buf ++ ch.data) full tokens
    go rest r.1 r.2.1 r.2.2

/-- An outline entry (`OutlineStep`, generate_plan.ts). -/
structure OutlineStep where
  step_key : String
  title : String
deriving DecidableEq, Repr

/-- A normalized outline (`OutlineResponse`, generate_plan.ts). -/
structure OutlineResponse where
  step_count : Nat
  steps : List OutlineStep
deriving DecidableEq, Repr

/-- Insert into the `byKey` map of `normalizeOutline` (`Map.prototype.set`
overwrites an existing binding). -/
def setKV (m : List (String × String)) (k v : String) : List (String × String) :=
  match m with
  | [] => [(k, v)]
  | (k', v') :: rest =>
    if k' = k then (k, v) :: rest else (k', v') :: setKV rest k v

/-- The `byKey` map built by `normalizeOutline` (generate_plan.ts:381-386):
entries with a nonempty trimmed key and title, later entries overwriting
earlier ones. -/
def outlineByKey (stepsRaw : List Json) : List (String × String) :=
  stepsRaw.foldl (fun m s =>
    let k : String := ⟨trimL (jsToString (jsCoalesce (jsGet s "step_key") (.str ""))).data⟩
    let t : String := ⟨trimL (jsToString (jsCoalesce (jsGet s "title") (.str ""))).data⟩
    if k ≠ "" ∧ t ≠ "" then setKV m k t else m) []

/-- Embedding of `normalizeOutline` (generate_plan.ts:377-396).  The bounds
are the `MIN_STEPS` / `MAX_STEPS` configuration values (natural numbers; the
deployed configuration uses 3 and 10). -/
def normalizeOutline (raw : Json) (MIN MAX : Nat) : OutlineResponse :=
  let stepsRaw : List Json :=
    match jsGet raw "steps" with
    | some (.arr xs) => xs
    | _ => []
  let step_count : Nat :=
    (clampInt (jsToNumber (jsCoalesce (jsGet raw "step_count")
      (Json.num (JNum.fin stepsRaw.length)))) MIN MAX).toNat
  let byKey := outlineByKey stepsRaw
  let steps := (List.range step_count).map (fun idx =>
    let i := idx + 1
    let k := "step_" ++ natDec i
    let t : String := ⟨trimL ((byKey.lookup k).getD "").data⟩
    { step_key := k, title := if t = "" then "Step " ++ natDec i else t })
  ⟨step_count, steps⟩

/-- The anchored test `/^step\s*\d+$/i.test(t)`. -/
def stepNumPattern (t : List Char) : Bool :=
  match lowerL t with
  | 's' :: 't' :: 'e' :: 'p' :: r =>
    let r' := r.dropWhile jsWS
    r' ≠ [] && r'.all Char.isDigit
  | _ => false

/-- The degenerate-title pass of `handleGeneratePlan`
(generate_plan.ts:461-464): any title that is empty after trimming, matches
a bare `step N` pattern, or is shorter than 6 characters is replaced by the
generic `Define step <i> deliverable`. -/
def fixDegenerateTitles (o : OutlineResponse) : OutlineResponse :=
  ⟨o.step_count,
    o.steps.enum.map (fun p =>
      let t : String := ⟨trimL p.2.title.data⟩
      if t = "" ∨ stepNumPattern t.data ∨ t.length < 6 then
        { p.2 with title := "Define step " ++ natDec (p.1 + 1) ++ " deliverable" }
      else p.2)⟩

/-- The normalized per-step generation payload (the return value of
`normalizeStepGen`). -/
structure StepGen where
  step_key : String
  title : String
  priority : String
  details : String
  success_criteria : String
  estimated_minutes : Int
deriving DecidableEq, Repr

/-- Embedding of `normalizeStepGen` (generate_plan.ts:398-408).  A `throw`
is modelled as `Except.error`.  The returned `step_key` / `title` are the
expected (orchestrator-supplied) values. -/
def normalizeStepGen (raw : Json) (expectedKey expectedTitle : String) :
    Except String StepGen :=
  let details := cleanText (jsToString (jsCoalesce (jsGet raw "details") (.str ""))) 120
  let success_criteria :=
    cleanText (jsToString (jsCoalesce (jsGet raw "success_criteria") (.str ""))) 110
  let estimated_minutes :=
    clampInt (jsToNumber (jsCoalesce (jsGet raw "estimated_minutes")
      (Json.num (JNum.fin 30)))) 10 90
  let priority := normalizePriority (jsGet raw "priority")
  if details = "" then .error ("Missing details for " ++ expectedKey)
  else if success_criteria = "" then .error ("Missing success_criteria for " ++ expectedKey)
  else .ok ⟨expectedKey, expectedTitle, priority, details, success_criteria,
    estimated_minutes⟩

/-- A `plan_steps` row (`StepRow`, generate_plan.ts:292-302). -/
structure StepRow where
  plan_id : String
  step_key : String
  order_index : Nat
  title : String
  details : String
  success_criteria : String
  priority : String
  estimated_minutes : Int
  status : String
deriving DecidableEq, Repr

/-- The placeholder row inserted for an outline entry
(generate_plan.ts:466-476). -/
def placeholderRow (plan_id : String) (idx : Nat) (s : OutlineStep) : StepRow :=
  ⟨plan_id, s.step_key, idx + 1, s.title, "", "", "medium", 30, "not_started"⟩

/-- The fully generated row for an outline entry (generate_plan.ts:508-518). -/
def genRow (plan_id : String) (idx : Nat) (g : StepGen) : StepRow :=
  ⟨plan_id, g.step_key, idx + 1, g.title, g.details, g.success_criteria,
    g.priority, g.estimated_minutes, "not_started"⟩

/-- Datastore bulk insert: appends the rows on success, leaves the table
unchanged when the operation reports an error. -/
def dbInsert (ok : Bool) (rows : List StepRow) (db : List StepRow) : List StepRow :=
  if ok then db ++ rows else db

/-- Datastore filtered update of the content fields (the
`.update(...).eq("plan_id", ...).eq("step_key", ...)` call,
generate_plan.ts:522-532); no change when the operation reports an error. -/
def dbUpdate (ok : Bool) (plan_id key : String) (g : StepGen) (db : List StepRow) :
    List StepRow :=
  if ok then
    db.map (fun r =>
      if r.plan_id = plan_id ∧ r.step_key = key then
        ⟨r.plan_id, r.step_key, r.order_index, r.title, g.details,
          g.success_criteria, g.priority, g.estimated_minutes, r.status⟩
      else r)
  else db

/-- Datastore filtered delete of all rows of a plan
(generate_plan.ts:539-543); no change when the operation reports an error
(the source swallows that error). -/
def dbDelete (ok : Bool) (plan_id : String) (db : List StepRow) : List StepRow :=
  if ok then db.filter (fun r => r.plan_id ≠ plan_id) else db

/-- Outcome oracle for the datastore operations of one orchestration run:
whether the placeholder insert succeeds, whether the per-step update at each
index succeeds, and whether the fallback delete and bulk insert succeed. -/
structure PersistOracle where
  placeholderInsertOk : Bool
  updateOk : Nat → Bool
  deleteOk : Bool
  bulkInsertOk : Bool

/-- The per-step generation-and-update loop of `handleGeneratePlan`
(generate_plan.ts:484-536).  `gen i` is the structured payload the
repair-on-failure controller returns for step `i`; a `normalizeStepGen`
throw aborts the run.  State: table contents, `insertedPlaceholders` flag,
`generated` accumulator, and the list of step indices at which an update was
attempted. -/
def stepLoop (plan_id : String) (gen : Nat → Json) (o : PersistOracle) :
    List (Nat × OutlineStep) → List StepRow → Bool → List StepRow → List Nat →
    Except String (List StepRow × List StepRow × Bool × List Nat)
  | [], db, inserted, generated, attempts => .ok (db, generated, inserted, attempts)
  | (i, s) :: rest, db, inserted, generated, attempts =>
    match normalizeStepGen (gen i) s.step_key s.title with
    | .error e => .error e
    | .ok g =>
      let row := genRow plan_id i g
      let generated' := generated ++ [row]
      if inserted then
        let ok := o.updateOk i
        let db' := dbUpdate ok plan_id row.step_key g db
        stepLoop plan_id gen o rest db' ok generated' (attempts ++ [i])
      else
        stepLoop plan_id gen o rest db inserted generated' attempts

/-- The persistence protocol of `handleGeneratePlan` after outline
normalization (generate_plan.ts:466-551): insert placeholders (a failure
only clears `insertedPlaceholders`), run the per-step loop, and if
incremental persistence was lost, delete the rows of the plan (best-effort)
and bulk-insert the generated rows (a failure there is terminal).  Returns
the final table, the generated rows and the attempted update indices. -/
def handleGeneratePlanPersist (plan_id : String) (outline : OutlineResponse)
    (gen : Nat → Json) (o : PersistOracle) (db0 : List StepRow) :
    Except String (List StepRow × List StepRow × List Nat) :=
  let placeholders := outline.steps.enum.map (fun p => placeholderRow plan_id p.1 p.2)
  let db1 := dbInsert o.placeholderInsertOk placeholders db0
  match stepLoop plan_id gen o outline.steps.enum db1 o.placeholderInsertOk [] [] with
  | .error e => .error e
  | .ok (db2, generated, inserted', attempts) =>
    if inserted' then .ok (db2, generated, attempts)
    else
      let db3 := dbDelete o.deleteOk plan_id db2
      if o.bulkInsertOk then .ok (db3 ++ generated, generated, attempts)
      else .error "Failed to insert generated steps"

/-! ## Helper lemmas -/

theorem normalizeStepGen_ok {raw : Json} {k t : String} {g : StepGen}
    (h : normalizeStepGen raw k t = .ok g) :
    g = ⟨k, t, normalizePriority (jsGet raw "priority"),
      cleanText (jsToString (jsCoalesce (jsGet raw "details") (.str ""))) 120,
      cleanText (jsToString (jsCoalesce (jsGet raw "success_criteria") (.str ""))) 110,
      clampInt (jsToNumber (jsCoalesce (jsGet raw "estimated_minutes")
        (Json.num (JNum.fin 30)))) 10 90⟩ := by
  simp only [normalizeStepGen] at h
  split at h
  · exact (Except.noConfusion h)
  · split at h
    · exact (Except.noConfusion h)
    · cases h
      rfl

theorem clampInt_bounds (n : JNum) (lo hi : Int) (h : lo ≤ hi) :
    lo ≤ clampInt n lo hi ∧ clampInt n lo hi ≤ hi := by
  cases n with
  | fin q =>
    simp only [clampInt]
    constructor
    · exact le_min h (le_max_left _ _)
    · exact min_le_left _ _
  | nan => simp [clampInt, h, le_refl]
  | inf b => simp [clampInt, h, le_refl]

theorem truthyFilter_some {o : Option Json} {v : Json}
    (h : truthyFilter o = some v) : v.truthy = true := by
  unfold truthyFilter at h
  split at h
  · split at h
    · cases h
      assumption
    · cases h
  · cases h

/-! ## Claim C4 -/

/-- C4: for every generator per-step payload `raw` and every expected key
`k` and expected title `t`, whenever `normalizeStepGen raw k t` returns a
value, the returned `step_key` equals `k` and the returned `title` equals
`t`; and the identity fields are independent of `raw` — two runs with
different generator payloads (including payloads echoing different
`step_key` / `title` values) agree on `step_key` and `title`. -/
theorem C4_normalizeStepGen_identity_authoritative :
    (∀ (raw : Json) (k t : String) (g : StepGen),
      normalizeStepGen raw k t = .ok g → g.step_key = k ∧ g.title = t) ∧
    (∀ (raw1 raw2 : Json) (k t : String) (g1 g2 : StepGen),
      normalizeStepGen raw1 k t = .ok g1 → normalizeStepGen raw2 k t = .ok g2 →
      g1.step_key = g2.step_key ∧ g1.title = g2.title) := by
  constructor
  · intro raw k t g h
    rw [normalizeStepGen_ok h]
    exact ⟨rfl, rfl⟩
  · intro raw1 raw2 k t g1 g2 h1 h2
    rw [normalizeStepGen_ok h1, normalizeStepGen_ok h2]
    exact ⟨rfl, rfl⟩

/-- A per-step generator payload that echoes a wrong key and title. -/
def c4raw : Json :=
  Json.obj [("step_key", Json.str "step_9"), ("title", Json.str "Hijacked title"),
    ("details", Json.str "Install the toolchain"),
    ("success_criteria", Json.str "Toolchain runs"),
    ("priority", Json.str "high"), ("estimated_minutes", Json.num (JNum.fin 45))]

/-- A second payload echoing a different wrong key and title. -/
def c4raw2 : Json :=
  Json.obj [("step_key", Json.str "step_3"), ("title", Json.str "Other title"),
    ("details", Json.str "Read the handbook"),
    ("success_criteria", Json.str "Handbook read"),
    ("priority", Json.str "low"), ("estimated_minutes", Json.num (JNum.fin 20))]

/-- Witness for C4 at concrete payloads: both runs return `step_key` and
`title` equal to the orchestrator values, ignoring the echoed ones. -/
theorem C4_witness :
    (normalizeStepGen c4raw "step_1" "Meet the team" =
      .ok ⟨"step_1", "Meet the team", "high", "Install the toolchain.",
        "Toolchain runs.", 45⟩) ∧
    (normalizeStepGen c4raw2 "step_1" "Meet the team" =
      .ok ⟨"step_1", "Meet the team", "low", "Read the handbook.",
        "Handbook read.", 20⟩) ∧
    (⟨"step_1", "Meet the team", "high", "Install the toolchain.",
        "Toolchain runs.", 45⟩ : StepGen).step_key = "step_1" ∧
    (⟨"step_1", "Meet the team", "high", "Install the toolchain.",
        "Toolchain runs.", 45⟩ : StepGen).step_key =
      (⟨"step_1", "Meet the team", "low", "Read the handbook.",
        "Handbook read.", 20⟩ : StepGen).step_key := by
  refine ⟨rfl, rfl, ?_, ?_⟩
  · exact (C4_normalizeStepGen_identity_authoritative.1 c4raw "step_1"
      "Meet the team" _ rfl).1
  · exact ((C4_normalizeStepGen_identity_authoritative.2 c4raw c4raw2 "step_1"
      "Meet the team" _ _ rfl rfl).1)

/-! ## Claim C8 -/

/-- A generator payload supplying a non-numeric `estimated_minutes`
(`Number("soon")` is `NaN`). -/
def c8raw : Json :=
  Json.obj [("details", Json.str "Install tools"),
    ("success_criteria", Json.str "Tools run"),
    ("estimated_minutes", Json.str "soon")]

/-- Counterexample to C8 as stated: a supplied non-finite
`estimated_minutes` normalizes to the lower bound 10, not to the claimed
default 30 (`clampInt` returns its `min` argument for a non-finite input). -/
theorem C8_counterexample :
    jsToNumber (Json.str "soon") = JNum.nan ∧
    normalizeStepGen c8raw "step_1" "Set up tools" =
      .ok ⟨"step_1", "Set up tools", "medium", "Install tools.",
        "Tools run.", 10⟩ ∧
    (10 : Int) ≠ 30 := ⟨rfl, rfl, by decide⟩

/-- C8 (amended): for every generator per-step payload, the normalized step
content has `estimated_minutes` an integer in [10, 90], equal to 30 when the
field is absent or null; when the supplied value is non-finite it is the
lower bound 10 (not 30); and `priority` is one of low / medium / high, with
`medium` substituted for any unrecognized value. -/
theorem C8_amended_minutes_and_priority_normalization :
    (∀ (raw : Json) (k t : String) (g : StepGen),
      normalizeStepGen raw k t = .ok g →
      (10 ≤ g.estimated_minutes ∧ g.estimated_minutes ≤ 90) ∧
      (jsGet raw "estimated_minutes" = none → g.estimated_minutes = 30) ∧
      (jsGet raw "estimated_minutes" = some Json.null → g.estimated_minutes = 30) ∧
      (∀ v, jsGet raw "estimated_minutes" = some v →
        (∀ q : ℚ, jsToNumber v ≠ .fin q) → g.estimated_minutes = 10) ∧
      (g.priority = "low" ∨ g.priority = "medium" ∨ g.priority = "high")) ∧
    (∀ v : Option Json,
      (normalizePriority v = "low" ∨ normalizePriority v = "medium" ∨
        normalizePriority v = "high") ∧
      (¬(priorityString v = "low" ∨ priorityString v = "medium" ∨
          priorityString v = "high") → normalizePriority v = "medium")) := by
  have hpr : ∀ v : Option Json,
      (normalizePriority v = "low" ∨ normalizePriority v = "medium" ∨
        normalizePriority v = "high") ∧
      (¬(priorityString v = "low" ∨ priorityString v = "medium" ∨
          priorityString v = "high") → normalizePriority v = "medium") := by
    intro v
    simp only [normalizePriority]
    split
    · next h => exact ⟨h, fun hn => absurd h hn⟩
    · exact ⟨Or.inr (Or.inl rfl), fun _ => rfl⟩
  refine ⟨?_, hpr⟩
  intro raw k t g h
  rw [normalizeStepGen_ok h]
  refine ⟨clampInt_bounds _ 10 90 (by norm_num), ?_, ?_, ?_, ?_⟩
  · intro habs
    show clampInt (jsToNumber (jsCoalesce (jsGet raw "estimated_minutes")
      (Json.num (JNum.fin 30)))) 10 90 = 30
    rw [habs]
    decide
  · intro hnull
    show clampInt (jsToNumber (jsCoalesce (jsGet raw "estimated_minutes")
      (Json.num (JNum.fin 30)))) 10 90 = 30
    rw [hnull]
    decide
  · intro v hv hnf
    show clampInt (jsToNumber (jsCoalesce (jsGet raw "estimated_minutes")
      (Json.num (JNum.fin 30)))) 10 90 = 10
    rw [hv]
    cases v with
    | null => exact absurd rfl (hnf 0)
    | bool b => exact absurd rfl (hnf (cond b 1 0))
    | num n =>
      cases n with
      | fin q => exact absurd rfl (hnf q)
      | nan => rfl
      | inf b => rfl
    | str s =>
      show clampInt (jsToNumber (Json.str s)) 10 90 = 10
      cases hn : jsToNumber (Json.str s) with
      | fin q => exact absurd hn (hnf q)
      | nan => rfl
      | inf b => rfl
    | arr xs =>
      show clampInt (jsToNumber (Json.arr xs)) 10 90 = 10
      cases hn : jsToNumber (Json.arr xs) with
      | fin q => exact absurd hn (hnf q)
      | nan => rfl
      | inf b => rfl
    | obj fs => rfl
  · exact (hpr (jsGet raw "priority")).1

/-- A payload with `estimated_minutes` absent and an unrecognized priority. -/
def c8wraw : Json :=
  Json.obj [("details", Json.str "Write the doc"),
    ("success_criteria", Json.str "Doc exists"),
    ("priority", Json.str "urgent")]

/-- Witness for the amended C8 at a concrete payload with the field absent:
the result is 30, in bounds, and the unrecognized priority becomes medium. -/
theorem C8_witness :
    (10 ≤ (⟨"step_1", "Welcome aboard", "medium", "Write the doc.",
        "Doc exists.", 30⟩ : StepGen).estimated_minutes ∧
      (⟨"step_1", "Welcome aboard", "medium", "Write the doc.",
        "Doc exists.", 30⟩ : StepGen).estimated_minutes ≤ 90) ∧
    (⟨"step_1", "Welcome aboard", "medium", "Write the doc.",
        "Doc exists.", 30⟩ : StepGen).estimated_minutes = 30 ∧
    normalizePriority (some (Json.str "urgent")) = "medium" := by
  have h := C8_amended_minutes_and_priority_normalization.1 c8wraw
    "step_1" "Welcome aboard"
    ⟨"step_1", "Welcome aboard", "medium", "Write the doc.", "Doc exists.", 30⟩ rfl
  exact ⟨h.1, h.2.1 rfl,
    (C8_amended_minutes_and_priority_normalization.2
      (some (Json.str "urgent"))).2 (by decide)⟩

/-! ## Claim C2 -/

theorem bind_parse_some {parse : String → Option Json} {o : Option String}
    {v : Json} (h : o.bind parse = some v) : ∃ s, parse s = some v := by
  cases o with
  | none => cases h
  | some s => exact ⟨s, h⟩

/-- C2: extraction is total — for every input string (empty string, non-JSON
prose, a valid JSON document wrapped in prose, malformed or truncated text)
and every model of `JSON.parse`, `tryParseJSON` returns either a value that
the parser produced on some candidate substring, or `none`; exceptions
cannot escape because every `JSON.parse` failure is absorbed by the fallback
chain (modelled by `parse` returning `none`). -/
theorem C2_tryParseJSON_total :
    ∀ (parse : String → Option Json) (raw : String),
      tryParseJSON parse raw = none ∨
      ∃ v s, tryParseJSON parse raw = some v ∧ parse s = some v := by
  intro parse raw
  unfold tryParseJSON
  dsimp only
  split
  · exact Or.inl rfl
  · split
    · exact Or.inl rfl
    · cases h1 : parse (stripFences raw) with
      | some v =>
        refine Or.inr ⟨v, stripFences raw, ?_, h1⟩
        simp only [h1]
      | none =>
        simp only [h1]
        cases h2 : ((sliceBetween (stripFences raw).data '{' '}').bind parse) with
        | some v =>
          obtain ⟨s, hs⟩ := bind_parse_some h2
          exact Or.inr ⟨v, s, by simp only [h2], hs⟩
        | none =>
          simp only [h2]
          cases h3 : ((sliceBetween (stripFences raw).data '[' ']').bind parse) with
          | some v =>
            obtain ⟨s, hs⟩ := bind_parse_some h3
            exact Or.inr ⟨v, s, rfl, hs⟩
          | none => exact Or.inl rfl

/-! ## Claim C7 -/

/-- Counterexample to C7 as stated: the input begins with a brace and does
not end with the matching closer `}` (it ends with `]`), so the claim
demands that extraction return `none` immediately; but the code only tests
for either closer, proceeds, and extraction succeeds on the brace-substring,
returning the parsed empty object. -/
theorem C7_counterexample :
    (trimL (stripFences "\x7b\x7d ]").data).head? = some '{' ∧
    (trimL (stripFences "\x7b\x7d ]").data).getLast? ≠ some '}' ∧
    tryParseJSON jsParse "\x7b\x7d ]" = some (Json.obj []) :=
  ⟨rfl, by decide, rfl⟩

/-- C7 (amended): for every input whose trimmed, fence-stripped text starts
with `{` or `[` but ends with NEITHER `}` nor `]`, extraction treats the
input as truncated and returns `none` for every model of `JSON.parse`
(hence without the result depending on any parse attempt). -/
theorem C7_amended_truncation_heuristic :
    ∀ (parse : String → Option Json) (raw : String),
      ((trimL (stripFences raw).data).head? = some '{' ∨
        (trimL (stripFences raw).data).head? = some '[') →
      (trimL (stripFences raw).data).getLast? ≠ some '}' →
      (trimL (stripFences raw).data).getLast? ≠ some ']' →
      tryParseJSON parse raw = none := by
  intro parse raw h1 h2 h3
  have htr : maybeTruncatedJSON (stripFences raw) = true := by
    unfold maybeTruncatedJSON
    dsimp only
    split
    · rfl
    · apply (Bool.and_eq_true _ _).mpr
      constructor
      · rcases h1 with h1 | h1 <;> simp [h1]
      · simp only [Bool.not_eq_true']
        apply Bool.or_eq_false_iff.mpr
        constructor <;> simp [h2, h3]
  unfold tryParseJSON
  dsimp only
  split
  · rfl
  · simp only [htr, if_true]

/-- Witness for the amended C7: a truncated object literal starts with `{`,
ends with neither closer, and extraction returns `none`. -/
theorem C7_witness :
    (trimL (stripFences "\x7b\"a\": 1").data).head? = some '{' ∧
    (trimL (stripFences "\x7b\"a\": 1").data).getLast? ≠ some '}' ∧
    (trimL (stripFences "\x7b\"a\": 1").data).getLast? ≠ some ']' ∧
    tryParseJSON jsParse "\x7b\"a\": 1" = none := by
  refine ⟨rfl, by decide, by decide, ?_⟩
  exact C7_amended_truncation_heuristic jsParse "\x7b\"a\": 1"
    (Or.inl rfl) (by decide) (by decide)

/-! ## Claim C1 -/

/-- An upstream oracle answering `"0"` to the primary call and a valid
object to the repair call. -/
def c1chat : Nat → ChatReq → Except String String :=
  fun i _ => if i = 0 then .ok "0" else .ok "\x7b\"a\":2\x7d"

/-- A parameter record with the deployed per-step budgets. -/
def c1params : CallJSONParams :=
  ⟨"http://ollama", "fast", "prompt", 260, 35000, "repair", 260, 20000, []⟩

/-- Counterexample to C1 as stated: on the primary response `"0"` the
Extractor succeeds (it returns the parsed value 0), yet `callJSON` does not
return that payload after one upstream call — the parsed value is falsy, so
the code issues the repair call and returns the repaired payload after two
calls. -/
theorem C1_counterexample :
    tryParseJSON jsParse "0" = some (Json.num (JNum.fin 0)) ∧
    c1chat 0 (primaryReq c1params) = .ok "0" ∧
    callJSON jsParse c1chat c1params =
      (.ok (Json.obj [("a", Json.num (JNum.fin 2))]), 2) ∧
    (2 : Nat) ≠ 1 := ⟨rfl, rfl, rfl, by decide⟩

/-- C1 (amended): for every structured-output request, `callJSON` and
`callJSONStream` make at most two upstream generation calls; when the
Extractor succeeds on the primary response WITH A TRUTHY PAYLOAD they return
that payload immediately after exactly one upstream call; and when the
primary response fails to produce a truthy payload but the repair response
succeeds with one, they return the repaired payload after exactly two
upstream calls. -/
theorem C1_amended_repair_controller_call_protocol :
    (∀ (parse : String → Option Json) (chat : Nat → ChatReq → Except String String)
      (p : CallJSONParams),
      (callJSON parse chat p).2 ≤ 2 ∧ (callJSONStream parse chat p).2 ≤ 2) ∧
    (∀ parse chat p a1 v, chat 0 (primaryReq p) = .ok a1 →
      tryParseJSON parse a1 = some v → v.truthy = true →
      callJSON parse chat p = (.ok v, 1) ∧
      callJSONStream parse chat p = (.ok (v, a1), 1)) ∧
    (∀ parse chat p a1 r w, chat 0 (primaryReq p) = .ok a1 →
      truthyFilter (tryParseJSON parse a1) = none →
      chat 1 (repairReq p a1) = .ok r →
      tryParseJSON parse r = some w → w.truthy = true →
      callJSON parse chat p = (.ok w, 2)) ∧
    (∀ parse chat p a1 r w, chat 0 (primaryReq p) = .ok a1 →
      truthyFilter (tryParseJSON parse a1) = none →
      chat 1 (repairReqStream p a1) = .ok r →
      tryParseJSON parse r = some w → w.truthy = true →
      callJSONStream parse chat p = (.ok (w, r), 2)) := by
  refine ⟨?_, ?_, ?_, ?_⟩
  · intro parse chat p
    constructor
    · unfold callJSON
      repeat' split
      all_goals simp
    · unfold callJSONStream
      repeat' split
      all_goals simp
  · intro parse chat p a1 v h0 hp ht
    have hf : truthyFilter (tryParseJSON parse a1) = some v := by
      rw [hp]
      simp [truthyFilter, ht]
    exact ⟨by simp [callJSON, h0, hf], by simp [callJSONStream, h0, hf]⟩
  · intro parse chat p a1 r w h0 hn h1 hp ht
    have hf : truthyFilter (tryParseJSON parse r) = some w := by
      rw [hp]
      simp [truthyFilter, ht]
    simp [callJSON, h0, hn, h1, hf]
  · intro parse chat p a1 r w h0 hn h1 hp ht
    have hf : truthyFilter (tryParseJSON parse r) = some w := by
      rw [hp]
      simp [truthyFilter, ht]
    simp [callJSONStream, h0, hn, h1, hf]

/-- An oracle whose primary response is already valid truthy JSON. -/
def w1chat : Nat → ChatReq → Except String String :=
  fun _ _ => .ok "\x7b\"a\":1\x7d"

/-- An oracle whose primary response is prose and whose repair response is
valid truthy JSON. -/
def w1chatRepair : Nat → ChatReq → Except String String :=
  fun i _ => if i = 0 then .ok "no json here" else .ok "\x7b\"b\":3\x7d"

/-- Witness for the amended C1 at concrete oracles: one call on a truthy
primary success, two calls with the repaired payload returned when the
primary fails extraction, and at most two calls always. -/
theorem C1_witness :
    (callJSON jsParse w1chat c1params).2 ≤ 2 ∧
    callJSON jsParse w1chat c1params =
      (.ok (Json.obj [("a", Json.num (JNum.fin 1))]), 1) ∧
    callJSONStream jsParse w1chat c1params =
      (.ok (Json.obj [("a", Json.num (JNum.fin 1))], "\x7b\"a\":1\x7d"), 1) ∧
    callJSON jsParse w1chatRepair c1params =
      (.ok (Json.obj [("b", Json.num (JNum.fin 3))]), 2) ∧
    callJSONStream jsParse w1chatRepair c1params =
      (.ok (Json.obj [("b", Json.num (JNum.fin 3))], "\x7b\"b\":3\x7d"), 2) := by
  refine ⟨(C1_amended_repair_controller_call_protocol.1 jsParse w1chat c1params).1,
    ?_, ?_, ?_, ?_⟩
  · exact (C1_amended_repair_controller_call_protocol.2.1 jsParse w1chat c1params
      "\x7b\"a\":1\x7d" (Json.obj [("a", Json.num (JNum.fin 1))]) rfl rfl rfl).1
  · exact (C1_amended_repair_controller_call_protocol.2.1 jsParse w1chat c1params
      "\x7b\"a\":1\x7d" (Json.obj [("a", Json.num (JNum.fin 1))]) rfl rfl rfl).2
  · exact C1_amended_repair_controller_call_protocol.2.2.1 jsParse w1chatRepair
      c1params "no json here" "\x7b\"b\":3\x7d"
      (Json.obj [("b", Json.num (JNum.fin 3))]) rfl rfl rfl rfl rfl
  · exact C1_amended_repair_controller_call_protocol.2.2.2 jsParse w1chatRepair
      c1params "no json here" "\x7b\"b\":3\x7d"
      (Json.obj [("b", Json.num (JNum.fin 3))]) rfl rfl rfl rfl rfl

/-! ## Claim C10 -/

/-- C10: `callJSON` and `callJSONStream` never return a JS-falsy payload —
every successful return value is truthy (so on every execution path they
either return a truthy parsed JSON value or fail) — and for every primary
response whose text is one of the valid JSON documents `null`, `0`, `false`
or the empty JSON string, the parsed result is treated as an extraction
failure and the repair call is issued (exactly two upstream calls occur,
whatever the repair outcome). -/
theorem C10_no_falsy_payload :
    (∀ (parse : String → Option Json) (chat : Nat → ChatReq → Except String String)
      (p : CallJSONParams) (v : Json) (n : Nat),
      callJSON parse chat p = (.ok v, n) → v.truthy = true) ∧
    (∀ (parse : String → Option Json) (chat : Nat → ChatReq → Except String String)
      (p : CallJSONParams) (v : Json) (raw : String) (n : Nat),
      callJSONStream parse chat p = (.ok (v, raw), n) → v.truthy = true) ∧
    (∀ (chat : Nat → ChatReq → Except String String) (p : CallJSONParams)
      (d : String),
      (d = "null" ∨ d = "0" ∨ d = "false" ∨ d = "\"\"") →
      chat 0 (primaryReq p) = .ok d →
      (callJSON jsParse chat p).2 = 2 ∧ (callJSONStream jsParse chat p).2 = 2) := by
  refine ⟨?_, ?_, ?_⟩
  · intro parse chat p v n h
    unfold callJSON at h
    split at h
    · cases h
    · split at h
      · next hf =>
        cases h
        exact truthyFilter_some hf
      · split at h
        · cases h
        · split at h
          · next hf =>
            cases h
            exact truthyFilter_some hf
          · cases h
  · intro parse chat p v raw n h
    unfold callJSONStream at h
    split at h
    · cases h
    · split at h
      · next hf =>
        cases h
        exact truthyFilter_some hf
      · split at h
        · cases h
        · split at h
          · next hf =>
            cases h
            exact truthyFilter_some hf
          · cases h
  · intro chat p d hd h0
    have hfalsy : truthyFilter (tryParseJSON jsParse d) = none := by
      rcases hd with h | h | h | h <;> subst h <;> rfl
    constructor
    · unfold callJSON
      rw [h0]
      simp only [hfalsy]
      split <;> try rfl
      split <;> rfl
    · unfold callJSONStream
      rw [h0]
      simp only [hfalsy]
      split <;> try rfl
      split <;> rfl

/-- An upstream oracle answering the JSON document `null` to the primary
call and prose to the repair call. -/
def c10chat : Nat → ChatReq → Except String String :=
  fun i _ => if i = 0 then .ok "null" else .ok "still not json"

/-- Witness for C10: with the primary response `null`, both controllers
issue the repair call (two upstream calls); and a successful concrete run
returns a truthy payload. -/
theorem C10_witness :
    ((callJSON jsParse c10chat c1params).2 = 2 ∧
      (callJSONStream jsParse c10chat c1params).2 = 2) ∧
    (Json.obj [("a", Json.num (JNum.fin 1))]).truthy = true := by
  constructor
  · exact C10_no_falsy_payload.2.2 c10chat c1params "null" (Or.inl rfl) rfl
  · exact C10_no_falsy_payload.1 jsParse w1chat c1params
      (Json.obj [("a", Json.num (JNum.fin 1))]) 1 rfl

/-! ## Claim C6 -/

/-- C6 evaluated at the failing input: the first chunk carries a record with
`done = true`; a later chunk carries a content delta.  The source `break`
exits only the inner line-splitting loop, not the outer read loop, so the
later delta IS forwarded to `onToken` and accumulated into the returned
text — contradicting the claim (and the inline comment `done == true ends
stream`). -/
theorem C6_late_delta_after_done_is_forwarded :
    ollamaChatStream
      ["\x7b\"done\":true\x7d\n",
       "\x7b\"message\":\x7b\"content\":\"LATE\"\x7d\x7d\n"] =
      ("LATE", ["LATE"]) ∧ ("LATE" : String) ≠ "" := ⟨rfl, by decide⟩

/-! ## Claim C3 -/

/-- An outline payload reporting `step_count = 5` with only three titled
entries. -/
def c3raw : Json :=
  Json.obj [("step_count", Json.num (JNum.fin 5)),
    ("steps", Json.arr [
      Json.obj [("step_key", Json.str "step_1"),
        ("title", Json.str "Meet your onboarding buddy")],
      Json.obj [("step_key", Json.str "step_2"),
        ("title", Json.str "Set up your dev environment")],
      Json.obj [("step_key", Json.str "step_3"),
        ("title", Json.str "Review team processes")]])]

/-- The expected outline after normalization and the degenerate-title pass:
five entries with keys `step_1..step_5`, the last two carrying the generic
fallback title. -/
def c3expected : OutlineResponse :=
  ⟨5, [⟨"step_1", "Meet your onboarding buddy"⟩,
    ⟨"step_2", "Set up your dev environment"⟩,
    ⟨"step_3", "Review team processes"⟩,
    ⟨"step_4", "Define step 4 deliverable"⟩,
    ⟨"step_5", "Define step 5 deliverable"⟩]⟩

/-- C3: for every raw generator outline payload (with
`MIN_STEPS ≤ MAX_STEPS`), the normalized outline has `step_count` clamped
into `[MIN_STEPS, MAX_STEPS]` and a steps list of exactly `step_count`
entries whose `step_key` values are positionally `step_1..step_N`, with no
gaps or duplicates, regardless of what keys the generator reported; and in
the concrete 5-versus-3 scenario the result after the degenerate-title pass
is exactly `c3expected`. -/
theorem C3_normalizeOutline_invariants :
    (∀ (raw : Json) (MIN MAX : Nat), MIN ≤ MAX →
      MIN ≤ (normalizeOutline raw MIN MAX).step_count ∧
      (normalizeOutline raw MIN MAX).step_count ≤ MAX ∧
      (normalizeOutline raw MIN MAX).steps.length =
        (normalizeOutline raw MIN MAX).step_count ∧
      (normalizeOutline raw MIN MAX).steps.map OutlineStep.step_key =
        (List.range (normalizeOutline raw MIN MAX).step_count).map
          (fun i => "step_" ++ natDec (i + 1)) ∧
      ((normalizeOutline raw MIN MAX).steps.map OutlineStep.step_key).Nodup) ∧
    fixDegenerateTitles (normalizeOutline c3raw 3 10) = c3expected := by
  constructor
  · intro raw MIN MAX hle
    have hcl := clampInt_bounds (jsToNumber (jsCoalesce (jsGet raw "step_count")
      (Json.num (JNum.fin (match jsGet raw "steps" with
        | some (.arr xs) => xs
        | _ => []).length)))) MIN MAX (by exact_mod_cast hle)
    have hkeys : (normalizeOutline raw MIN MAX).steps.map OutlineStep.step_key =
        (List.range (normalizeOutline raw MIN MAX).step_count).map
          (fun i => "step_" ++ natDec (i + 1)) := by
      simp only [normalizeOutline, List.map_map]
      rfl
    refine ⟨?_, ?_, ?_, hkeys, ?_⟩
    · show MIN ≤ (clampInt _ MIN MAX).toNat
      omega
    · show (clampInt _ MIN MAX).toNat ≤ MAX
      omega
    · simp [normalizeOutline]
    · rw [hkeys]
      refine List.Nodup.map ?_ (List.nodup_range _)
      intro a b hab
      have : natDec (a + 1) = natDec (b + 1) := by
        have := congrArg String.data hab
        simp only [String.data_append] at this
        have := List.append_cancel_left this
        exact congrArg String.mk this
      have := natDec_inj this
      omega
  · rfl

/-- Witness for C3, instantiating the invariant at the concrete payload and
the deployed bounds `MIN_STEPS = 3`, `MAX_STEPS = 10`. -/
theorem C3_witness :
    (3 ≤ (normalizeOutline c3raw 3 10).step_count ∧
      (normalizeOutline c3raw 3 10).step_count ≤ 10 ∧
      (normalizeOutline c3raw 3 10).steps.length =
        (normalizeOutline c3raw 3 10).step_count ∧
      (normalizeOutline c3raw 3 10).steps.map OutlineStep.step_key =
        (List.range (normalizeOutline c3raw 3 10).step_count).map
          (fun i => "step_" ++ natDec (i + 1)) ∧
      ((normalizeOutline c3raw 3 10).steps.map OutlineStep.step_key).Nodup) ∧
    (3 : Nat) ≤ 10 :=
  ⟨C3_normalizeOutline_invariants.1 c3raw 3 10 (by decide), by decide⟩

/-! ## Claim C5 -/

/-- A two-step outline for the orchestration-fallback scenarios. -/
def c5outline : OutlineResponse :=
  ⟨2, [⟨"step_1", "Meet the team now"⟩, ⟨"step_2", "Read the handbook"⟩]⟩

/-- A generator producing the same valid per-step payload for every step. -/
def c5gen : Nat → Json := fun _ =>
  Json.obj [("details", Json.str "Do the thing"),
    ("success_criteria", Json.str "Thing done")]

/-- Failure pattern: placeholder insert succeeds, every update fails, the
best-effort cleanup delete FAILS, the bulk insert succeeds. -/
def c5oracle : PersistOracle := ⟨true, fun _ => false, false, true⟩

/-- The placeholder rows of the two-step outline. -/
def c5placeholders : List StepRow :=
  [⟨"p1", "step_1", 1, "Meet the team now", "", "", "medium", 30, "not_started"⟩,
   ⟨"p1", "step_2", 2, "Read the handbook", "", "", "medium", 30, "not_started"⟩]

/-- The generated rows of the two-step outline. -/
def c5genRows : List StepRow :=
  [⟨"p1", "step_1", 1, "Meet the team now", "Do the thing.", "Thing done.",
    "medium", 30, "not_started"⟩,
   ⟨"p1", "step_2", 2, "Read the handbook", "Do the thing.", "Thing done.",
    "medium", 30, "not_started"⟩]

/-- Counterexample to C5 as stated: placeholder insert succeeds and the
first per-step update fails, but because the best-effort cleanup delete also
fails (its error is swallowed), the final persisted row set is the
placeholders PLUS the bulk-inserted rows — duplicate `step_key` values and a
mix of both kinds of rows, not "exactly the generated step rows". -/
theorem C5_counterexample :
    handleGeneratePlanPersist "p1" c5outline c5gen c5oracle [] =
      .ok (c5placeholders ++ c5genRows, c5genRows, [0]) ∧
    ¬ (((c5placeholders ++ c5genRows).map StepRow.step_key).Nodup) ∧
    (c5placeholders ++ c5genRows).filter (fun r => r.plan_id = "p1") ≠ c5genRows :=
  ⟨rfl, by decide, by decide⟩

theorem stepLoop_false (plan_id : String) (gen : Nat → Json) (o : PersistOracle)
    (G : Nat → StepGen) :
    ∀ (ps : List (Nat × OutlineStep)) (db generated : List StepRow)
      (attempts : List Nat),
      (∀ p ∈ ps, normalizeStepGen (gen p.1) p.2.step_key p.2.title = .ok (G p.1)) →
      stepLoop plan_id gen o ps db false generated attempts =
        .ok (db, generated ++ ps.map (fun p => genRow plan_id p.1 (G p.1)),
          false, attempts) := by
  intro ps
  induction ps with
  | nil => intro db generated attempts _; simp [stepLoop]
  | cons p rest ih =>
    intro db generated attempts h
    obtain ⟨i, s⟩ := p
    have hp := h (i, s) (List.mem_cons_self _ _)
    simp only [stepLoop, hp]
    rw [if_neg (by simp)]
    rw [ih db (generated ++ [genRow plan_id i (G i)]) attempts
      (fun q hq => h q (List.mem_cons_of_mem _ hq))]
    simp

theorem stepLoop_true_firstFail (plan_id : String) (gen : Nat → Json)
    (o : PersistOracle) (G : Nat → StepGen) :
    ∀ (steps : List OutlineStep) (k m : Nat) (db generated : List StepRow)
      (attempts : List Nat),
      (∀ p ∈ List.enumFrom k steps,
        normalizeStepGen (gen p.1) p.2.step_key p.2.title = .ok (G p.1)) →
      k ≤ m → m < k + steps.length →
      (∀ j, k ≤ j → j < m → o.updateOk j = true) →
      o.updateOk m = false →
      ∃ dbF, stepLoop plan_id gen o (List.enumFrom k steps) db true generated attempts =
        .ok (dbF,
          generated ++ (List.enumFrom k steps).map (fun p => genRow plan_id p.1 (G p.1)),
          false, attempts ++ List.range' k (m + 1 - k)) := by
  intro steps
  induction steps with
  | nil =>
    intro k m db generated attempts _ hkm hlt _ _
    simp at hlt
    omega
  | cons s rest ih =>
    intro k m db generated attempts h hkm hlt hfirst hfail
    have hp := h (k, s) (List.mem_cons_self _ _)
    show ∃ dbF, stepLoop plan_id gen o ((k, s) :: List.enumFrom (k + 1) rest)
      db true generated attempts = _
    simp only [stepLoop, hp]
    rw [if_pos trivial]
    by_cases hkeq : k = m
    · subst hkeq
      rw [hfail]
      refine ⟨dbUpdate false plan_id (genRow plan_id k (G k)).step_key (G k) db, ?_⟩
      rw [stepLoop_false plan_id gen o G _ _ _ _
        (fun q hq => h q (List.mem_cons_of_mem _ hq))]
      have hr : k + 1 - k = 1 := by omega
      rw [hr]
      simp [List.range']
    · have hku : o.updateOk k = true := hfirst k (le_refl k) (by omega)
      rw [hku]
      obtain ⟨dbF, hrec⟩ := ih (k + 1) m
        (dbUpdate true plan_id (genRow plan_id k (G k)).step_key (G k) db)
        (generated ++ [genRow plan_id k (G k)]) (attempts ++ [k])
        (fun q hq => h q (List.mem_cons_of_mem _ hq))
        (by omega) (by simp at hlt ⊢; omega)
        (fun j hj1 hj2 => hfirst j (by omega) hj2) hfail
      refine ⟨dbF, ?_⟩
      rw [hrec]
      have hr : m + 1 - k = (m - k) + 1 := by omega
      have hr2 : m + 1 - (k + 1) = m - k := by omega
      rw [hr2] at *
      rw [hr, List.range'_succ]
      simp

/-- C5 (amended): in any orchestration run where the placeholder insert
succeeds, every per-step generation succeeds, and some per-step update fails
midway (first failure at index `m`), the run permanently switches to the
bulk-insert path — updates are attempted exactly for indices `0..m` and
later updates are skipped, not retried; and PROVIDED the best-effort cleanup
delete and the bulk insert succeed, the final persisted row set for the plan
equals exactly the generated step rows, with no duplicate and no missing
`step_key` (when the outline keys are distinct), and never a mix of
placeholder rows and bulk-inserted rows. -/
theorem C5_amended_fallback_exact_rows :
    ∀ (plan_id : String) (outline : OutlineResponse) (gen : Nat → Json)
      (o : PersistOracle) (db0 : List StepRow) (G : Nat → StepGen) (m : Nat),
      (∀ p ∈ outline.steps.enum,
        normalizeStepGen (gen p.1) p.2.step_key p.2.title = .ok (G p.1)) →
      o.placeholderInsertOk = true →
      m < outline.steps.length →
      o.updateOk m = false →
      (∀ j, j < m → o.updateOk j = true) →
      o.deleteOk = true →
      o.bulkInsertOk = true →
      ∃ dbF,
        handleGeneratePlanPersist plan_id outline gen o db0 =
          .ok (dbF,
            outline.steps.enum.map (fun p => genRow plan_id p.1 (G p.1)),
            List.range (m + 1)) ∧
        dbF.filter (fun r => r.plan_id = plan_id) =
          outline.steps.enum.map (fun p => genRow plan_id p.1 (G p.1)) ∧
        (outline.steps.enum.map (fun p => genRow plan_id p.1 (G p.1))).map
            StepRow.step_key = outline.steps.map OutlineStep.step_key ∧
        ((outline.steps.map OutlineStep.step_key).Nodup →
          ((outline.steps.enum.map (fun p => genRow plan_id p.1 (G p.1))).map
            StepRow.step_key).Nodup) ∧
        (∀ r ∈ dbF, r.plan_id = plan_id →
          r ∈ outline.steps.enum.map (fun p => genRow plan_id p.1 (G p.1))) := by
  intro plan_id outline gen o db0 G m hG hph hm hfail hfirst hdel hbulk
  have hkeys : (outline.steps.enum.map (fun p => genRow plan_id p.1 (G p.1))).map
      StepRow.step_key = outline.steps.map OutlineStep.step_key := by
    rw [List.map_map]
    have hcong : ∀ p ∈ outline.steps.enum,
        (StepRow.step_key ∘ fun p => genRow plan_id p.1 (G p.1)) p =
          (OutlineStep.step_key ∘ Prod.snd) p := by
      intro p hp
      have := normalizeStepGen_ok (hG p hp)
      simp only [Function.comp_apply, genRow, this]
    rw [List.map_congr_left hcong, ← List.map_map]
    rw [List.enum_map_snd]
  obtain ⟨db2, hloop⟩ := stepLoop_true_firstFail plan_id gen o G outline.steps 0 m
    (dbInsert o.placeholderInsertOk
      ((List.enumFrom 0 outline.steps).map (fun p => placeholderRow plan_id p.1 p.2)) db0)
    [] [] hG (Nat.zero_le m) (by omega) (fun j _ hj => hfirst j hj) hfail
  have hrange : List.range' 0 (m + 1 - 0) = List.range (m + 1) := by
    rw [Nat.sub_zero, List.range_eq_range']
  refine ⟨(db2.filter (fun r => r.plan_id ≠ plan_id)) ++
    outline.steps.enum.map (fun p => genRow plan_id p.1 (G p.1)), ?_, ?_, hkeys, ?_, ?_⟩
  · rw [hph] at hloop
    unfold handleGeneratePlanPersist
    dsimp only
    rw [hph]
    rw [show outline.steps.enum = List.enumFrom 0 outline.steps from rfl]
    rw [hloop]
    dsimp only
    rw [if_neg (by simp)]
    unfold dbDelete
    rw [hdel]
    rw [if_pos rfl, hbulk]
    rw [if_pos rfl]
    simp only [List.nil_append, hrange]
  · rw [List.filter_append]
    have h1 : (db2.filter (fun r => r.plan_id ≠ plan_id)).filter
        (fun r => r.plan_id = plan_id) = [] := by
      apply List.filter_eq_nil_iff.mpr
      intro r hr
      have := List.of_mem_filter hr
      simp at this ⊢
      exact this
    have h2 : (outline.steps.enum.map (fun p => genRow plan_id p.1 (G p.1))).filter
        (fun r => r.plan_id = plan_id) =
        outline.steps.enum.map (fun p => genRow plan_id p.1 (G p.1)) := by
      apply List.filter_eq_self.mpr
      intro r hr
      obtain ⟨p, _, hp⟩ := List.mem_map.mp hr
      subst hp
      simp [genRow]
    rw [h1, h2, List.nil_append]
  · intro hnd
    rw [hkeys]
    exact hnd
  · intro r hr hpl
    rcases List.mem_append.mp hr with h | h
    · have := List.of_mem_filter h
      simp [hpl] at this
    · exact h

/-- Failure pattern for the amended C5: first update fails, cleanup delete
and bulk insert succeed. -/
def w5oracle : PersistOracle := ⟨true, fun i => !(i == 0), true, true⟩

/-- The normalized per-step payloads of the witness run. -/
def w5G : Nat → StepGen := fun i =>
  if i = 0 then
    ⟨"step_1", "Meet the team now", "medium", "Do the thing.", "Thing done.", 30⟩
  else
    ⟨"step_2", "Read the handbook", "medium", "Do the thing.", "Thing done.", 30⟩

/-- Witness for the amended C5 at the concrete two-step run: update 0 fails,
the delete and bulk insert succeed, and the final table is exactly the
generated rows with distinct keys; exactly one update was attempted. -/
theorem C5_witness :
    handleGeneratePlanPersist "p1" c5outline c5gen w5oracle [] =
      .ok (c5genRows, c5genRows, List.range 1) ∧
    c5genRows.filter (fun r => r.plan_id = "p1") = c5genRows ∧
    (c5genRows.map StepRow.step_key).Nodup := by
  have hG : ∀ p ∈ c5outline.steps.enum,
      normalizeStepGen (c5gen p.1) p.2.step_key p.2.title = .ok (w5G p.1) := by
    intro p hp
    have hp2 : p = ((0 : Nat), (⟨"step_1", "Meet the team now"⟩ : OutlineStep)) ∨
        p = ((1 : Nat), (⟨"step_2", "Read the handbook"⟩ : OutlineStep)) := by
      simpa [c5outline, List.enum, List.enumFrom] using hp
    rcases hp2 with rfl | rfl <;> rfl
  obtain ⟨dbF, h1, h2, h3, h4, h5⟩ :=
    C5_amended_fallback_exact_rows "p1" c5outline c5gen w5oracle [] w5G 0
      hG rfl (by decide) rfl (fun j hj => absurd hj (Nat.not_lt_zero j)) rfl rfl
  have he : handleGeneratePlanPersist "p1" c5outline c5gen w5oracle [] =
      .ok (c5genRows, c5genRows, List.range 1) := rfl
  have hg : c5outline.steps.enum.map (fun p => genRow "p1" p.1 (w5G p.1)) =
      c5genRows := rfl
  have hd : dbF = c5genRows := by
    rw [he] at h1
    injection h1 with h'
    rw [hg] at h'
    have := congrArg Prod.fst h'
    simpa using this.symm
  refine ⟨he, ?_, ?_⟩
  · rw [hd, hg] at h2
    exact h2
  · rw [hg] at h4
    exact h4 (by decide)

/-! ## Claim C9 -/

/-- The string `x''ty ty.` (built characterwise to keep the apostrophes
explicit).  It satisfies the output invariants claimed as the idempotence
hypothesis: its length is within bound and it ends in terminal
punctuation. -/
def c9bad : String := ⟨['x', apos, apos, 't', 'y', ' ', 't', 'y', '.']⟩

/-- The string `x' ty.` — the first cleaning of `c9bad`. -/
def c9mid : String := ⟨['x', apos, ' ', 't', 'y', '.']⟩

/-- Counterexample to C9 as stated: `c9bad` satisfies the claimed
hypotheses (length within `maxLen + 1`, ends in terminal punctuation), yet
cleaning it twice differs from cleaning it once: the garbage-token pass
removes one `'ty` occurrence and thereby creates a fresh `'  ty` match that
only the second pass removes. -/
theorem C9_counterexample :
    c9bad.data.length ≤ 120 + 1 ∧
    endsPunct c9bad.data = true ∧
    cleanText c9bad 120 = c9mid ∧
    cleanText (cleanText c9bad 120) 120 = "x." ∧
    cleanText (cleanText c9bad 120) 120 ≠ cleanText c9bad 120 :=
  ⟨by decide, by decide, by decide, by decide, by decide⟩

/-- Whitespace-normal-form scanner: no whitespace character other than the
ASCII space, no two adjacent spaces, and (when the incoming flag is `true`)
no leading space. -/
def wsNormAux : Bool → List Char → Bool
  | _, [] => true
  | prevSp, c :: rest =>
    if c = ' ' then !prevSp && wsNormAux true rest
    else !(jsWS c) && wsNormAux false rest

/-- Full whitespace normal form: normal scanner run plus no trailing
space. -/
def WSNorm (l : List Char) : Prop :=
  wsNormAux true l = true ∧ l.getLast? ≠ some ' '

theorem aux_append_trunc {b : Bool} {l1 l2 : List Char}
    (h : wsNormAux b (l1 ++ l2) = true) : wsNormAux b l1 = true := by
  induction l1 generalizing b with
  | nil => rfl
  | cons c rest ih =>
    rw [List.cons_append, wsNormAux] at h
    rw [wsNormAux]
    split at h <;> split <;> first
      | (rename_i h1 h2; exact absurd h1 h2)
      | (rename_i h1 h2; exact absurd h2 h1)
      | (obtain ⟨ha, hb⟩ := Bool.and_eq_true_iff.mp h
         exact Bool.and_eq_true_iff.mpr ⟨ha, ih hb⟩)

theorem aux_true_false {l : List Char} (h : wsNormAux true l = true) :
    wsNormAux false l = true := by
  cases l with
  | nil => rfl
  | cons c rest =>
    rw [wsNormAux] at h ⊢
    split at h
    · simp at h
    · rw [if_neg (by assumption)]
      exact h

theorem aux_take {b : Bool} {l : List Char} (n : Nat)
    (h : wsNormAux b l = true) : wsNormAux b (l.take n) = true := by
  have := List.take_append_drop n l
  rw [← this] at h
  exact aux_append_trunc h

theorem aux_head {l : List Char} (h : wsNormAux true l = true)
    {c : Char} (hc : l.head? = some c) : jsWS c = false := by
  cases l with
  | nil => cases hc
  | cons d rest =>
    cases hc
    rw [wsNormAux] at h
    split at h
    · simp at h
    · have := (Bool.and_eq_true_iff.mp h).1
      simpa using this

theorem aux_onlySpace {b : Bool} {l : List Char} (h : wsNormAux b l = true)
    {c : Char} (hc : c ∈ l) (hw : jsWS c = true) : c = ' ' := by
  induction l generalizing b with
  | nil => cases hc
  | cons d rest ih =>
    rw [wsNormAux] at h
    rcases List.mem_cons.mp hc with rfl | hmem
    · split at h
      · assumption
      · have := (Bool.and_eq_true_iff.mp h).1
        simp [hw] at this
    · split at h <;> exact ih (Bool.and_eq_true_iff.mp h).2 hmem

theorem aux_noAdj {b : Bool} {l : List Char} (h : wsNormAux b l = true) :
    ∀ i, ¬(l[i]? = some ' ' ∧ l[i + 1]? = some ' ') := by
  induction l generalizing b with
  | nil => intro i ⟨h1, _⟩; cases h1
  | cons d rest ih =>
    intro i ⟨h1, h2⟩
    cases i with
    | zero =>
      simp only [List.getElem?_cons_zero, Option.some.injEq] at h1
      subst h1
      rw [wsNormAux, if_pos rfl] at h
      have hr := (Bool.and_eq_true_iff.mp h).2
      simp only [List.getElem?_cons_succ] at h2
      cases rest with
      | nil => cases h2
      | cons e rest2 =>
        simp only [List.getElem?_cons_zero, Option.some.injEq] at h2
        subst h2
        rw [wsNormAux, if_pos rfl] at hr
        simp at hr
    | succ j =>
      simp only [List.getElem?_cons_succ] at h1 h2
      rw [wsNormAux] at h
      split at h <;> exact ih (Bool.and_eq_true_iff.mp h).2 j ⟨h1, h2⟩

theorem aux_append_single {b : Bool} {l : List Char} {c : Char}
    (h : wsNormAux b l = true) (hc : c ≠ ' ') (hw : jsWS c = false) :
    wsNormAux b (l ++ [c]) = true := by
  induction l generalizing b with
  | nil =>
    show wsNormAux b [c] = true
    rw [wsNormAux, if_neg hc, hw]
    rfl
  | cons d rest ih =>
    rw [List.cons_append, wsNormAux]
    rw [wsNormAux] at h
    split at h <;> rename_i hd
    · rw [if_pos hd]
      obtain ⟨h1, h2⟩ := Bool.and_eq_true_iff.mp h
      exact Bool.and_eq_true_iff.mpr ⟨h1, ih h2⟩
    · rw [if_neg hd]
      obtain ⟨h1, h2⟩ := Bool.and_eq_true_iff.mp h
      exact Bool.and_eq_true_iff.mpr ⟨h1, ih h2⟩

theorem dropWhile_of_head {p : Char → Bool} {l : List Char}
    (h : ∀ c, l.head? = some c → p c = false) : l.dropWhile p = l := by
  cases l with
  | nil => rfl
  | cons c rest =>
    rw [List.dropWhile_cons, h c rfl]
    simp

theorem dropTrailing_of_last {p : Char → Bool} {l : List Char}
    (h : ∀ c, l.getLast? = some c → p c = false) : dropTrailing p l = l := by
  unfold dropTrailing
  rw [dropWhile_of_head, List.reverse_reverse]
  intro c hc
  apply h
  rwa [List.head?_reverse] at hc

theorem trimL_of_norm {l : List Char}
    (hh : ∀ c, l.head? = some c → jsWS c = false)
    (hl : ∀ c, l.getLast? = some c → jsWS c = false) : trimL l = l := by
  unfold trimL
  rw [dropWhile_of_head hh]
  exact dropTrailing_of_last hl

theorem dropWhile_append_single {p : Char → Bool} {l : List Char} {c : Char}
    (hc : p c = false) : (l ++ [c]).dropWhile p = l.dropWhile p ++ [c] := by
  induction l with
  | nil => simp [List.dropWhile, hc]
  | cons d rest ih =>
    rw [List.cons_append, List.dropWhile_cons, List.dropWhile_cons]
    split <;> simp [ih]

theorem dropTrailing_append_single {p : Char → Bool} {l : List Char} {c : Char}
    (hc : p c = false) : dropTrailing p (l ++ [c]) = l ++ [c] := by
  unfold dropTrailing
  rw [List.reverse_append]
  simp only [List.reverse_cons, List.reverse_nil, List.nil_append,
    List.singleton_append, List.dropWhile_cons, hc]
  simp

theorem trimL_append_single {l : List Char} {c : Char} (hc : jsWS c = false) :
    trimL (l ++ [c]) = l.dropWhile jsWS ++ [c] := by
  unfold trimL
  rw [dropWhile_append_single hc, dropTrailing_append_single hc]

theorem mem_dropTrailing {p : Char → Bool} {l : List Char} {c : Char}
    (h : c ∈ dropTrailing p l) : c ∈ l := by
  unfold dropTrailing at h
  rw [List.mem_reverse] at h
  have := (List.dropWhile_sublist (p := p) (l := l.reverse)).subset h
  rwa [List.mem_reverse] at this

theorem mem_trimL {l : List Char} {c : Char} (h : c ∈ trimL l) : c ∈ l := by
  unfold trimL at h
  exact (List.dropWhile_sublist _).subset (mem_dropTrailing h)

theorem length_dropTrailing_le (p : Char → Bool) (l : List Char) :
    (dropTrailing p l).length ≤ l.length := by
  unfold dropTrailing
  rw [List.length_reverse]
  have := length_dropWhile_le p l.reverse
  simpa using this

theorem length_trimL_le (l : List Char) : (trimL l).length ≤ l.length := by
  unfold trimL
  calc (dropTrailing jsWS (l.dropWhile jsWS)).length
      ≤ (l.dropWhile jsWS).length := length_dropTrailing_le _ _
    _ ≤ l.length := length_dropWhile_le _ _

theorem dropTrailing_getLast {p : Char → Bool} {l : List Char} {c : Char}
    (h : (dropTrailing p l).getLast? = some c) : p c = false := by
  unfold dropTrailing at h
  rw [List.getLast?_reverse] at h
  cases hl : (l.reverse.dropWhile p).head? with
  | none => rw [hl] at h; cases h
  | some d =>
    rw [hl] at h
    cases h
    have h2 := List.head?_dropWhile_not (p := p) (l := l.reverse)
    rw [hl] at h2
    exact h2

theorem collapseGo_aux : ∀ l : List Char,
    wsNormAux true (collapseGo true l) = true ∧
    wsNormAux false (collapseGo false l) = true := by
  intro l
  induction l with
  | nil => exact ⟨rfl, rfl⟩
  | cons c rest ih =>
    constructor
    · rw [collapseGo]
      split
      · exact ih.1
      · rename_i hws
        rw [Bool.not_eq_true] at hws
        rw [wsNormAux, if_neg (fun he => by rw [he] at hws; cases hws), hws]
        exact Bool.and_eq_true_iff.mpr ⟨rfl, ih.2⟩
    · rw [collapseGo]
      split
      · rw [if_neg (by simp)]
        rw [wsNormAux, if_pos rfl]
        exact Bool.and_eq_true_iff.mpr ⟨rfl, ih.1⟩
      · rename_i hws
        rw [Bool.not_eq_true] at hws
        rw [wsNormAux, if_neg (fun he => by rw [he] at hws; cases hws), hws]
        exact Bool.and_eq_true_iff.mpr ⟨rfl, ih.2⟩

theorem collapseGo_id : ∀ l : List Char,
    (wsNormAux true l = true → collapseGo true l = l ∧ collapseGo false l = l) ∧
    (wsNormAux false l = true → collapseGo false l = l) := by
  intro l
  induction l with
  | nil => exact ⟨fun _ => ⟨rfl, rfl⟩, fun _ => rfl⟩
  | cons c rest ih =>
    constructor
    · intro h
      rw [wsNormAux] at h
      split at h
      · simp at h
      · rename_i hsp
        obtain ⟨h1, h2⟩ := Bool.and_eq_true_iff.mp h
        rw [Bool.not_eq_true'] at h1
        constructor <;>
          · rw [collapseGo, if_neg (by rw [h1]; simp)]
            rw [(ih.2 h2)]
    · intro h
      rw [wsNormAux] at h
      split at h <;> rename_i hsp
      · subst hsp
        obtain ⟨_, h2⟩ := Bool.and_eq_true_iff.mp h
        rw [collapseGo, if_pos (by rfl), if_neg (by simp)]
        rw [(ih.1 h2).1]
      · obtain ⟨h1, h2⟩ := Bool.and_eq_true_iff.mp h
        rw [Bool.not_eq_true'] at h1
        rw [collapseGo, if_neg (by rw [h1]; simp)]
        rw [ih.2 h2]

theorem collapseGo_append_single {c : Char} (hc : jsWS c = false) :
    ∀ (l : List Char) (b : Bool),
      collapseGo b (l ++ [c]) = collapseGo b l ++ [c] := by
  intro l
  induction l with
  | nil =>
    intro b
    show collapseGo b [c] = collapseGo b [] ++ [c]
    simp [collapseGo, hc]
  | cons d rest ih =>
    intro b
    rw [List.cons_append, collapseGo, collapseGo]
    split
    · split
      · exact ih true
      · rw [ih true]; rfl
    · rw [ih false]; rfl

theorem mem_collapseGo {c : Char} : ∀ {l : List Char} {b : Bool},
    c ∈ collapseGo b l → c ∈ l ∨ c = ' ' := by
  intro l
  induction l with
  | nil => intro b h; cases h
  | cons d rest ih =>
    intro b h
    rw [collapseGo] at h
    split at h
    · split at h
      · rcases ih h with h2 | h2
        · exact Or.inl (List.mem_cons_of_mem _ h2)
        · exact Or.inr h2
      · rcases List.mem_cons.mp h with rfl | h2
        · exact Or.inr rfl
        · rcases ih h2 with h3 | h3
          · exact Or.inl (List.mem_cons_of_mem _ h3)
          · exact Or.inr h3
    · rcases List.mem_cons.mp h with rfl | h2
      · exact Or.inl (List.mem_cons_self _ _)
      · rcases ih h2 with h3 | h3
        · exact Or.inl (List.mem_cons_of_mem _ h3)
        · exact Or.inr h3

theorem length_collapseGo_le : ∀ (l : List Char) (b : Bool),
    (collapseGo b l).length ≤ l.length := by
  intro l
  induction l with
  | nil => intro b; simp [collapseGo]
  | cons d rest ih =>
    intro b
    rw [collapseGo]
    split
    · split
      · exact Nat.le_succ_of_le (ih true)
      · simpa using ih true
    · simpa using ih false

theorem mapQuote_space_iff (c : Char) : mapQuote c = ' ' ↔ c = ' ' := by
  unfold mapQuote
  split
  · rename_i h
    constructor
    · intro he; cases he
    · intro he
      rcases h with h | h <;> rw [he] at h <;> cases h
  · split
    · rename_i h
      constructor
      · intro he
        exact absurd he (by decide)
      · intro he
        rcases h with h | h <;> rw [he] at h <;> cases h
    · exact Iff.rfl

theorem mapQuote_ws (c : Char) : jsWS (mapQuote c) = jsWS c := by
  unfold mapQuote
  split
  · rename_i h
    rcases h with h | h <;> subst h <;> decide
  · split
    · rename_i h
      rcases h with h | h <;> subst h <;> decide
    · rfl

theorem mapQuote_not_curly (c : Char) :
    mapQuote c ≠ lDouble ∧ mapQuote c ≠ rDouble ∧
    mapQuote c ≠ lSingle ∧ mapQuote c ≠ rSingle := by
  unfold mapQuote
  split
  · exact ⟨by decide, by decide, by decide, by decide⟩
  · split
    · exact ⟨by decide, by decide, by decide, by decide⟩
    · rename_i h1 h2
      push_neg at h1 h2
      exact ⟨h1.1, h1.2, h2.1, h2.2⟩

theorem mapQuote_id_of_not_curly {c : Char} (h1 : c ≠ lDouble) (h2 : c ≠ rDouble)
    (h3 : c ≠ lSingle) (h4 : c ≠ rSingle) : mapQuote c = c := by
  unfold mapQuote
  rw [if_neg (by tauto), if_neg (by tauto)]

theorem map_mapQuote_id {l : List Char}
    (h : ∀ c ∈ l, c ≠ lDouble ∧ c ≠ rDouble ∧ c ≠ lSingle ∧ c ≠ rSingle) :
    l.map mapQuote = l := by
  induction l with
  | nil => rfl
  | cons c rest ih =>
    rw [List.map_cons]
    obtain ⟨h1, h2, h3, h4⟩ := h c (List.mem_cons_self _ _)
    rw [mapQuote_id_of_not_curly h1 h2 h3 h4,
      ih (fun d hd => h d (List.mem_cons_of_mem _ hd))]

theorem aux_map_mapQuote {b : Bool} {l : List Char}
    (h : wsNormAux b l = true) : wsNormAux b (l.map mapQuote) = true := by
  induction l generalizing b with
  | nil => rfl
  | cons c rest ih =>
    rw [List.map_cons, wsNormAux]
    rw [wsNormAux] at h
    split at h <;> rename_i hsp
    · subst hsp
      rw [if_pos (by decide)]
      obtain ⟨h1, h2⟩ := Bool.and_eq_true_iff.mp h
      exact Bool.and_eq_true_iff.mpr ⟨h1, ih h2⟩
    · rw [if_neg (fun he => hsp ((mapQuote_space_iff c).mp he))]
      obtain ⟨h1, h2⟩ := Bool.and_eq_true_iff.mp h
      rw [Bool.not_eq_true'] at h1
      refine Bool.and_eq_true_iff.mpr ⟨?_, ih h2⟩
      rw [mapQuote_ws, h1]
      rfl

theorem stripGarbageGo_id : ∀ (fuel : Nat) (l : List Char),
    (∀ c ∈ l, c ≠ apos) → stripGarbageGo fuel l = l := by
  intro fuel
  induction fuel with
  | zero => intro l _; cases l <;> rfl
  | succ fuel ih =>
    intro l h
    cases l with
    | nil => rfl
    | cons c rest =>
      rw [stripGarbageGo]
      rw [if_neg (h c (List.mem_cons_self _ _))]
      rw [ih rest (fun d hd => h d (List.mem_cons_of_mem _ hd))]

theorem stripGarbage_id {l : List Char} (h : ∀ c ∈ l, c ≠ apos) :
    stripGarbage l = l := stripGarbageGo_id _ l h

theorem getLast?_mem_list {l : List Char} {c : Char} (h : l.getLast? = some c) :
    c ∈ l := by
  have hx : c ∈ l.getLast? := by rw [Option.mem_def]; exact h
  obtain ⟨hne, heq⟩ := List.mem_getLast?_eq_getLast hx
  rw [heq]
  exact List.getLast_mem hne

theorem aux_dropWhile {l : List Char} (h : wsNormAux false l = true) :
    wsNormAux true (l.dropWhile jsWS) = true := by
  cases l with
  | nil => rfl
  | cons c rest =>
    by_cases hsp : c = ' '
    · subst hsp
      rw [wsNormAux, if_pos rfl] at h
      obtain ⟨_, h2⟩ := Bool.and_eq_true_iff.mp h
      rw [List.dropWhile_cons, if_pos (by decide)]
      rw [dropWhile_of_head]
      · exact h2
      · intro d hd
        exact aux_head h2 hd
    · rw [wsNormAux, if_neg hsp] at h
      obtain ⟨h1, h2⟩ := Bool.and_eq_true_iff.mp h
      rw [Bool.not_eq_true'] at h1
      rw [List.dropWhile_cons, if_neg (by rw [h1]; simp)]
      rw [wsNormAux, if_neg hsp, h1]
      exact Bool.and_eq_true_iff.mpr ⟨rfl, h2⟩

theorem dropTrailing_isPref (p : Char → Bool) (l : List Char) :
    dropTrailing p l <+: l := by
  unfold dropTrailing
  have h := List.dropWhile_suffix (l := l.reverse) (p := p)
  have h2 := List.reverse_prefix.mpr h
  rwa [List.reverse_reverse] at h2

theorem aux_isPref {b : Bool} {l1 l2 : List Char} (hp : l1 <+: l2)
    (h : wsNormAux b l2 = true) : wsNormAux b l1 = true := by
  obtain ⟨t, rfl⟩ := hp
  exact aux_append_trunc h

theorem WSNorm_trimL {l : List Char} (h : wsNormAux false l = true) :
    WSNorm (trimL l) := by
  have hx : wsNormAux true (l.dropWhile jsWS) = true := aux_dropWhile h
  constructor
  · exact aux_isPref (dropTrailing_isPref jsWS _) hx
  · intro he
    have := dropTrailing_getLast (p := jsWS) (l := l.dropWhile jsWS)
      (c := ' ') he
    simp [jsWS] at this

theorem WSNorm_coreNorm (l : List Char) : WSNorm (coreNorm l) := by
  unfold coreNorm collapseWS
  exact WSNorm_trimL (collapseGo_aux _).2

theorem mem_stripGarbageGo : ∀ (fuel : Nat) (l : List Char) (c : Char),
    c ∈ stripGarbageGo fuel l → c ∈ l := by
  intro fuel
  induction fuel with
  | zero => intro l c h; cases l <;> exact h
  | succ fuel ih =>
    intro l c h
    cases l with
    | nil => exact h
    | cons d rest =>
      rw [stripGarbageGo] at h
      split at h
      · split at h
        · rename_i n _
          exact List.mem_cons_of_mem _ (List.drop_subset _ _ (ih _ _ h))
        · rcases List.mem_cons.mp h with rfl | h2
          · exact List.mem_cons_self _ _
          · exact List.mem_cons_of_mem _ (ih _ _ h2)
      · rcases List.mem_cons.mp h with rfl | h2
        · exact List.mem_cons_self _ _
        · exact List.mem_cons_of_mem _ (ih _ _ h2)

theorem mem_coreNorm {l : List Char} {c : Char} (h : c ∈ coreNorm l) :
    (∃ d ∈ l, c = mapQuote d) ∨ c = ' ' := by
  unfold coreNorm collapseWS at h
  have h1 := mem_trimL h
  rcases mem_collapseGo h1 with h2 | h2
  · have h3 := mem_stripGarbageGo _ _ _ h2
    have h4 := mem_trimL h3
    obtain ⟨d, hd, rfl⟩ := List.mem_map.mp h4
    rcases mem_collapseGo hd with h5 | h5
    · exact Or.inl ⟨d, h5, rfl⟩
    · subst h5
      exact Or.inr (by decide)
  · exact Or.inr h2

theorem coreNorm_of_norm {u : List Char} (hn : WSNorm u)
    (hap : ∀ c ∈ u, c ≠ apos)
    (hcu : ∀ c ∈ u, c ≠ lDouble ∧ c ≠ rDouble ∧ c ≠ lSingle ∧ c ≠ rSingle) :
    coreNorm u = u := by
  have hcoll : collapseWS u = u := ((collapseGo_id u).1 hn.1).2
  have htrim : trimL u = u := by
    apply trimL_of_norm
    · intro c hc
      exact aux_head hn.1 hc
    · intro c hc
      by_contra hws
      rw [Bool.not_eq_false] at hws
      have := aux_onlySpace hn.1 (getLast?_mem_list hc) hws
      subst this
      exact hn.2 hc
  unfold coreNorm
  rw [hcoll, map_mapQuote_id hcu, htrim, stripGarbage_id hap, hcoll, htrim]

theorem mapQuote_eq_apos {d : Char} (h : mapQuote d = apos) :
    d = apos ∨ d = lSingle ∨ d = rSingle := by
  unfold mapQuote at h
  split at h
  · exact absurd h (by decide)
  · split at h
    · rename_i hd
      exact Or.inr hd
    · exact Or.inl h

theorem no_apos_stage {l : List Char}
    (hq : ∀ c ∈ l, c ≠ apos ∧ c ≠ lSingle ∧ c ≠ rSingle) :
    ∀ c ∈ trimL ((collapseWS l).map mapQuote), c ≠ apos := by
  intro c hc
  have h1 := mem_trimL hc
  obtain ⟨d, hd, rfl⟩ := List.mem_map.mp h1
  rcases mem_collapseGo hd with h2 | h2
  · intro he
    obtain ⟨ha, hs1, hs2⟩ := hq d h2
    rcases mapQuote_eq_apos he with h3 | h3 | h3
    · exact ha h3
    · exact hs1 h3
    · exact hs2 h3
  · subst h2
    decide

theorem termPunct_facts {p : Char} (h : isTermPunct p = true) :
    jsWS p = false ∧ p ≠ ' ' ∧ mapQuote p = p := by
  unfold isTermPunct at h
  rcases Bool.or_eq_true_iff.mp h with h2 | h3
  · rcases Bool.or_eq_true_iff.mp h2 with h4 | h4 <;>
      · have : p = '.' ∨ p = '!' := by
          rcases Bool.or_eq_true_iff.mp h2 with h5 | h5
          · exact Or.inl (by simpa using h5)
          · exact Or.inr (by simpa using h5)
        rcases this with rfl | rfl <;> exact ⟨by decide, by decide, by decide⟩
  · have : p = '?' := by simpa using h3
    subst this
    exact ⟨by decide, by decide, by decide⟩

theorem coreNorm_concat_punct {l : List Char}
    (hq : ∀ c ∈ l, c ≠ apos ∧ c ≠ lSingle ∧ c ≠ rSingle)
    (hne : l ≠ []) (hp : endsPunct l = true) :
    ∃ w p, coreNorm l = w ++ [p] ∧ isTermPunct p = true := by
  obtain ⟨l0, p, rfl, hterm⟩ :
      ∃ l0 p, l = l0 ++ [p] ∧ isTermPunct p = true := by
    refine ⟨l.dropLast, l.getLast hne, (List.dropLast_append_getLast hne).symm, ?_⟩
    unfold endsPunct at hp
    rw [List.getLast?_eq_getLast_of_ne_nil hne] at hp
    exact hp
  obtain ⟨hpws, hpsp, hpq⟩ := termPunct_facts hterm
  have heq1 : collapseWS (l0 ++ [p]) = collapseGo false l0 ++ [p] :=
    collapseGo_append_single hpws l0 false
  have heq2 : (collapseWS (l0 ++ [p])).map mapQuote =
      (collapseGo false l0).map mapQuote ++ [p] := by
    rw [heq1, List.map_append]
    simp [hpq]
  have heq3 : trimL ((collapseWS (l0 ++ [p])).map mapQuote) =
      ((collapseGo false l0).map mapQuote).dropWhile jsWS ++ [p] := by
    rw [heq2]
    exact trimL_append_single hpws
  have hnap := no_apos_stage hq
  have heq4 : stripGarbage (trimL ((collapseWS (l0 ++ [p])).map mapQuote)) =
      ((collapseGo false l0).map mapQuote).dropWhile jsWS ++ [p] := by
    rw [stripGarbage_id hnap]
    exact heq3
  have heq5 : collapseWS (stripGarbage (trimL ((collapseWS (l0 ++ [p])).map
      mapQuote))) =
      collapseGo false (((collapseGo false l0).map mapQuote).dropWhile jsWS)
        ++ [p] := by
    rw [heq4]
    exact collapseGo_append_single hpws _ false
  refine ⟨(collapseGo false (((collapseGo false l0).map
    mapQuote).dropWhile jsWS)).dropWhile jsWS, p, ?_, hterm⟩
  unfold coreNorm
  rw [heq5]
  exact trimL_append_single hpws

theorem coreNorm_length_le {l : List Char}
    (hq : ∀ c ∈ l, c ≠ apos ∧ c ≠ lSingle ∧ c ≠ rSingle) :
    (coreNorm l).length ≤ l.length := by
  unfold coreNorm
  rw [stripGarbage_id (no_apos_stage hq)]
  calc (trimL (collapseWS (trimL ((collapseWS l).map mapQuote)))).length
      ≤ (collapseWS (trimL ((collapseWS l).map mapQuote))).length :=
        length_trimL_le _
    _ ≤ (trimL ((collapseWS l).map mapQuote)).length := length_collapseGo_le _ _
    _ ≤ ((collapseWS l).map mapQuote).length := length_trimL_le _
    _ = (collapseWS l).length := List.length_map _ _
    _ ≤ l.length := length_collapseGo_le _ _

theorem endsPunct_ne_nil {t : List Char} (h : endsPunct t = true) : t ≠ [] := by
  intro he
  subst he
  cases h

theorem finishClean_short {t : List Char} {M : Nat} (hp : endsPunct t = true)
    (hlen : t.length ≤ M) : finishClean t M = t := by
  unfold finishClean
  have hnlt : ¬ (M < t.length) := by omega
  rw [if_neg hnlt, if_neg (endsPunct_ne_nil hp), if_pos hp]

theorem WSNorm_cutAt {t : List Char} {M : Nat}
    (h : wsNormAux true t = true) : WSNorm (cutAt t M) := by
  unfold cutAt
  split
  · split <;> exact WSNorm_trimL (aux_true_false (aux_take _ h))
  · exact WSNorm_trimL (aux_true_false (aux_take _ h))

theorem WSNorm_append_dot {t : List Char} (h : WSNorm t) :
    WSNorm (t ++ ['.']) := by
  constructor
  · exact aux_append_single h.1 (by decide) (by decide)
  · rw [List.getLast?_concat]
    simp

theorem WSNorm_finishClean {t : List Char} {M : Nat} (h : WSNorm t) :
    WSNorm (finishClean t M) := by
  unfold finishClean
  dsimp only
  split
  · split
    · exact WSNorm_cutAt h.1
    · split
      · exact WSNorm_cutAt h.1
      · exact WSNorm_append_dot (WSNorm_cutAt h.1)
  · split
    · exact h
    · split
      · exact h
      · exact WSNorm_append_dot h

theorem mem_cutAt {t : List Char} {M : Nat} {c : Char} (h : c ∈ cutAt t M) :
    c ∈ t := by
  unfold cutAt at h
  split at h
  · split at h <;> exact List.take_subset _ _ (mem_trimL h)
  · exact List.take_subset _ _ (mem_trimL h)

theorem mem_finishClean {t : List Char} {M : Nat} {c : Char}
    (h : c ∈ finishClean t M) : c ∈ t ∨ c = '.' := by
  unfold finishClean at h
  dsimp only at h
  split at h
  · split at h
    · exact Or.inl (mem_cutAt h)
    · split at h
      · exact Or.inl (mem_cutAt h)
      · rcases List.mem_append.mp h with h2 | h2
        · exact Or.inl (mem_cutAt h2)
        · exact Or.inr (by simpa using h2)
  · split at h
    · exact Or.inl h
    · split at h
      · exact Or.inl h
      · rcases List.mem_append.mp h with h2 | h2
        · exact Or.inl h2
        · exact Or.inr (by simpa using h2)

theorem lastSpaceLE_spec {l : List Char} : ∀ {m i : Nat},
    lastSpaceLE l m = some i → i ≤ m ∧ l[i]? = some ' ' := by
  intro m
  induction m with
  | zero =>
    intro i h
    rw [lastSpaceLE] at h
    split at h
    · cases h
      exact ⟨Nat.le_refl 0, by assumption⟩
    · cases h
  | succ m ih =>
    intro i h
    rw [lastSpaceLE] at h
    split at h
    · cases h
      exact ⟨Nat.le_refl _, by assumption⟩
    · obtain ⟨h1, h2⟩ := ih h
      exact ⟨Nat.le_succ_of_le h1, h2⟩

theorem lastSpaceLE_congr {l1 l2 : List Char} : ∀ {m : Nat},
    (∀ j, j ≤ m → (l1[j]? = some ' ' ↔ l2[j]? = some ' ')) →
    lastSpaceLE l1 m = lastSpaceLE l2 m := by
  intro m
  induction m with
  | zero =>
    intro h
    rw [lastSpaceLE, lastSpaceLE]
    by_cases h0 : l1[0]? = some ' '
    · rw [if_pos h0, if_pos ((h 0 (Nat.le_refl 0)).mp h0)]
    · rw [if_neg h0, if_neg (fun hc => h0 ((h 0 (Nat.le_refl 0)).mpr hc))]
  | succ m ih =>
    intro h
    rw [lastSpaceLE, lastSpaceLE]
    by_cases h0 : l1[m + 1]? = some ' '
    · rw [if_pos h0, if_pos ((h (m + 1) (Nat.le_refl _)).mp h0)]
    · rw [if_neg h0, if_neg (fun hc => h0 ((h (m + 1) (Nat.le_refl _)).mpr hc)),
        ih (fun j hj => h j (Nat.le_succ_of_le hj))]

theorem finishClean_nil (M : Nat) : finishClean [] M = [] := by
  unfold finishClean
  have hnlt : ¬ (M < ([] : List Char).length) := by simp
  rw [if_neg hnlt, if_pos rfl]

theorem endsPunct_concat_dot (x : List Char) : endsPunct (x ++ ['.']) = true := by
  unfold endsPunct
  rw [List.getLast?_concat]
  decide

theorem head?_take {t : List Char} {i : Nat} (h : 0 < i) :
    (t.take i).head? = t.head? := by
  cases t with
  | nil => simp
  | cons c rest =>
    cases i with
    | zero => omega
    | succ j => simp [List.take]

theorem getLast?_take {t : List Char} {i : Nat} (h1 : 1 ≤ i) (h2 : i ≤ t.length) :
    (t.take i).getLast? = t[i - 1]? := by
  rw [List.getLast?_eq_getElem?]
  rw [List.length_take]
  have hmin : min i t.length = i := by omega
  rw [hmin]
  rw [List.getElem?_take]
  rw [if_pos (by omega)]

theorem trimL_concat_space {x : List Char}
    (hh : ∀ c, x.head? = some c → jsWS c = false)
    (hl : ∀ c, x.getLast? = some c → jsWS c = false) :
    trimL (x ++ [' ']) = x := by
  cases x with
  | nil => decide
  | cons c rest =>
    have h1 : ((c :: rest) ++ [' ']).dropWhile jsWS = (c :: rest) ++ [' '] := by
      apply dropWhile_of_head
      intro d hd
      rw [List.cons_append] at hd
      simp only [List.head?_cons, Option.some.injEq] at hd
      subst hd
      exact hh c rfl
    have h2 : ((c :: rest) ++ [' ']).reverse = ' ' :: (c :: rest).reverse := by
      simp
    unfold trimL dropTrailing
    rw [h1, h2, List.dropWhile_cons, if_pos (by decide)]
    rw [dropWhile_of_head, List.reverse_reverse]
    intro d hd
    apply hl
    rwa [List.head?_reverse] at hd

theorem lt_of_getElem?_some {l : List Char} {i : Nat} {c : Char}
    (h : l[i]? = some c) : i < l.length := by
  by_contra hn
  rw [List.getElem?_eq_none (by omega)] at h
  cases h

theorem mem_of_getElem?_some {l : List Char} {i : Nat} {c : Char}
    (h : l[i]? = some c) : c ∈ l := by
  have hi := lt_of_getElem?_some h
  rw [List.getElem?_eq_getElem hi] at h
  cases h
  exact List.getElem_mem hi

theorem trimL_take_at_space {t : List Char} {i : Nat} (hn : WSNorm t)
    (hi : t[i]? = some ' ') (h1 : 1 ≤ i) :
    trimL (t.take i) = t.take i := by
  have hilen : i < t.length := lt_of_getElem?_some hi
  apply trimL_of_norm
  · intro c hc
    rw [head?_take (by omega)] at hc
    exact aux_head hn.1 hc
  · intro c hc
    rw [getLast?_take h1 (by omega)] at hc
    by_contra hws
    rw [Bool.not_eq_false] at hws
    have hc' := aux_onlySpace hn.1 (mem_of_getElem?_some hc) hws
    subst hc'
    exact aux_noAdj hn.1 (i - 1)
      ⟨hc, by rw [show i - 1 + 1 = i by omega]; exact hi⟩

theorem trimL_take_of_last_not_space {t : List Char} {M : Nat} (hn : WSNorm t)
    (hM1 : 1 ≤ M) (hMlen : M ≤ t.length) (hns : t[M - 1]? ≠ some ' ') :
    trimL (t.take M) = t.take M := by
  apply trimL_of_norm
  · intro c hc
    rw [head?_take (by omega)] at hc
    exact aux_head hn.1 hc
  · intro c hc
    rw [getLast?_take hM1 hMlen] at hc
    by_contra hws
    rw [Bool.not_eq_false] at hws
    have hc' := aux_onlySpace hn.1 (mem_of_getElem?_some hc) hws
    subst hc'
    exact hns hc

theorem trimL_take_at_last_space {t : List Char} {M : Nat} (hn : WSNorm t)
    (hM1 : 1 ≤ M) (hMlen : M ≤ t.length) (hsp : t[M - 1]? = some ' ') :
    trimL (t.take M) = t.take (M - 1) := by
  have hdec : t.take M = t.take (M - 1) ++ [' '] := by
    have := List.take_succ (l := t) (n := M - 1)
    rw [show M - 1 + 1 = M by omega] at this
    rw [this, hsp]
    rfl
  rw [hdec]
  apply trimL_concat_space
  · intro c hc
    have h0 : 0 < M - 1 := by
      by_contra h0
      have : M - 1 = 0 := by omega
      rw [this] at hc
      cases hc
    rw [head?_take h0] at hc
    exact aux_head hn.1 hc
  · intro c hc
    have h0 : 1 ≤ M - 1 := by
      by_contra h0
      have : M - 1 = 0 := by omega
      rw [this] at hc
      cases hc
    rw [getLast?_take h0 (by omega)] at hc
    by_contra hws
    rw [Bool.not_eq_false] at hws
    have hc' := aux_onlySpace hn.1 (mem_of_getElem?_some hc) hws
    subst hc'
    refine aux_noAdj hn.1 (M - 1 - 1) ⟨hc, ?_⟩
    rw [show M - 1 - 1 + 1 = M - 1 by omega]
    exact hsp

theorem punctStage_fix {v : List Char} {M : Nat} (h : v.length < M) :
    finishClean (if v = [] then v else if endsPunct v = true then v
      else v ++ ['.']) M =
    (if v = [] then v else if endsPunct v = true then v else v ++ ['.']) := by
  split
  · rename_i hv
    rw [hv]
    exact finishClean_nil M
  · split
    · exact finishClean_short (by assumption) (by omega)
    · refine finishClean_short (endsPunct_concat_dot v) ?_
      rw [List.length_append]
      simp
      omega

theorem finishClean_fix_hard {t : List Char} {M : Nat} (hn : WSNorm t)
    (hlen1 : t.length = M + 1) {p : Char} (hpM : t[M]? = some p) (hpsp : p ≠ ' ')
    (hj : lastSpaceLE t M = none ∨ ∃ i, lastSpaceLE t M = some i ∧ ¬ 20 < i) :
    finishClean (finishClean t M) M = finishClean t M := by
  have hM : M < t.length := by omega
  have hcut : cutAt t M = trimL (t.take M) := by
    unfold cutAt
    rcases hj with h | ⟨i, h, h20⟩
    · rw [h]
    · rw [h]
      dsimp only
      rw [if_neg h20]
  by_cases hM0 : M = 0
  · subst hM0
    have hz : finishClean t 0 = [] := by
      unfold finishClean
      rw [if_pos hM, hcut]
      rw [show t.take 0 = [] from rfl, show trimL ([] : List Char) = [] from rfl,
        if_pos rfl]
    rw [hz, finishClean_nil]
  · have hM1 : 1 ≤ M := by omega
    by_cases hsp : t[M - 1]? = some ' '
    · have htr : trimL (t.take M) = t.take (M - 1) :=
        trimL_take_at_last_space hn hM1 (by omega) hsp
      have hfc : finishClean t M =
          (if t.take (M - 1) = [] then t.take (M - 1)
           else if endsPunct (t.take (M - 1)) = true then t.take (M - 1)
           else t.take (M - 1) ++ ['.']) := by
        unfold finishClean
        rw [if_pos hM, hcut, htr]
      rw [hfc]
      exact punctStage_fix (by rw [List.length_take]; omega)
    · have htr : trimL (t.take M) = t.take M :=
        trimL_take_of_last_not_space hn hM1 (by omega) hsp
      have hvlen : (t.take M).length = M := by rw [List.length_take]; omega
      have hvne : t.take M ≠ [] := by
        intro he
        rw [he] at hvlen
        simp at hvlen
        omega
      have hfc : finishClean t M =
          (if endsPunct (t.take M) = true then t.take M
           else t.take M ++ ['.']) := by
        unfold finishClean
        rw [if_pos hM, hcut, htr, if_neg hvne]
      by_cases hep : endsPunct (t.take M) = true
      · rw [hfc, if_pos hep]
        rw [finishClean_short hep (by omega)]
      · rw [hfc, if_neg hep]
        have hulen : (t.take M ++ ['.']).length = M + 1 := by
          rw [List.length_append, hvlen]
          rfl
        have hcongr : lastSpaceLE (t.take M ++ ['.']) M = lastSpaceLE t M := by
          apply lastSpaceLE_congr
          intro j hjM
          rcases Nat.lt_or_ge j M with hjlt | hjge
          · have he : (t.take M ++ ['.'])[j]? = t[j]? := by
              rw [List.getElem?_append_left (by rw [hvlen]; omega)]
              rw [List.getElem?_take, if_pos hjlt]
            rw [he]
          · have hjM' : j = M := by omega
            rw [hjM']
            have h1 : (t.take M ++ ['.'])[M]? = some '.' := by
              have h2 := List.getElem?_concat_length (t.take M) '.'
              rw [hvlen] at h2
              exact h2
            rw [h1, hpM]
            constructor
            · intro hx
              have : '.' = ' ' := by injection hx
              exact absurd this (by decide)
            · intro hx
              have : p = ' ' := by injection hx
              exact absurd this hpsp
        have hcut2 : cutAt (t.take M ++ ['.']) M = trimL ((t.take M ++ ['.']).take M) := by
          unfold cutAt
          rw [hcongr]
          rcases hj with h | ⟨i, h, h20⟩
          · rw [h]
          · rw [h]
            dsimp only
            rw [if_neg h20]
        have htk : (t.take M ++ ['.']).take M = t.take M := by
          have h2 := List.take_left (t.take M) ['.']
          rw [hvlen] at h2
          exact h2
        have hlt : M < (t.take M ++ ['.']).length := by
          rw [hulen]
          exact Nat.lt_succ_self M
        unfold finishClean
        rw [if_pos hlt, hcut2, htk, htr, if_neg hvne, if_neg hep]

theorem finishClean_fix {t : List Char} {M : Nat} (hn : WSNorm t)
    (hp : t ≠ [] → endsPunct t = true) (hlen : t.length ≤ M + 1) :
    finishClean (finishClean t M) M = finishClean t M := by
  by_cases hte : t = []
  · subst hte
    rw [finishClean_nil, finishClean_nil]
  · have hpt := hp hte
    by_cases hshort : t.length ≤ M
    · rw [finishClean_short hpt hshort, finishClean_short hpt hshort]
    · have hlen1 : t.length = M + 1 := by omega
      have hM : M < t.length := by omega
      obtain ⟨p, hpM, hpunct⟩ : ∃ p, t[M]? = some p ∧ isTermPunct p = true := by
        refine ⟨t.getLast hte, ?_, ?_⟩
        · have h1 := List.getLast?_eq_getElem? t
          rw [List.getLast?_eq_getLast_of_ne_nil hte] at h1
          rw [show M = t.length - 1 by omega]
          exact h1.symm
        · unfold endsPunct at hpt
          rw [List.getLast?_eq_getLast_of_ne_nil hte] at hpt
          exact hpt
      have hpsp : p ≠ ' ' := (termPunct_facts hpunct).2.1
      cases hj : lastSpaceLE t M with
      | none =>
        exact finishClean_fix_hard hn hlen1 hpM hpsp (Or.inl hj)
      | some i =>
        obtain ⟨hiM, hisp⟩ := lastSpaceLE_spec hj
        have hiltM : i < M := by
          rcases Nat.lt_or_ge i M with h | h
          · exact h
          · have hieq : i = M := by omega
            rw [hieq, hpM] at hisp
            have : p = ' ' := by injection hisp
            exact absurd this hpsp
        by_cases h20 : 20 < i
        · have hcut : cutAt t M = t.take i := by
            unfold cutAt
            rw [hj]
            dsimp only
            rw [if_pos h20]
            exact trimL_take_at_space hn hisp (by omega)
          have hfc : finishClean t M =
              (if t.take i = [] then t.take i
               else if endsPunct (t.take i) = true then t.take i
               else t.take i ++ ['.']) := by
            unfold finishClean
            rw [if_pos hM, hcut]
          rw [hfc]
          exact punctStage_fix (by rw [List.length_take]; omega)
        · exact finishClean_fix_hard hn hlen1 hpM hpsp (Or.inr ⟨i, hj, h20⟩)

theorem cleanTextL_idem (l : List Char) (M : Nat)
    (hlen : l.length ≤ M + 1)
    (hp : l ≠ [] → endsPunct l = true)
    (hq : ∀ c ∈ l, c ≠ apos ∧ c ≠ lSingle ∧ c ≠ rSingle) :
    cleanTextL (cleanTextL l M) M = cleanTextL l M := by
  have hnorm1 : WSNorm (coreNorm l) := WSNorm_coreNorm l
  have hplen : (coreNorm l).length ≤ M + 1 :=
    le_trans (coreNorm_length_le hq) hlen
  have hpunct : coreNorm l ≠ [] → endsPunct (coreNorm l) = true := by
    intro hne1
    by_cases hle : l = []
    · subst hle
      exact absurd (show coreNorm ([] : List Char) = [] from rfl) hne1
    · obtain ⟨w, p, hw, hpt⟩ := coreNorm_concat_punct hq hle (hp hle)
      rw [hw]
      unfold endsPunct
      rw [List.getLast?_concat]
      exact hpt
  have hnormu : WSNorm (finishClean (coreNorm l) M) := WSNorm_finishClean hnorm1
  have hcoreu : coreNorm (finishClean (coreNorm l) M) =
      finishClean (coreNorm l) M := by
    apply coreNorm_of_norm hnormu
    · intro c hc
      rcases mem_finishClean hc with h1 | h1
      · rcases mem_coreNorm h1 with ⟨d, hd, rfl⟩ | h2
        · obtain ⟨ha, hs1, hs2⟩ := hq d hd
          intro he
          rcases mapQuote_eq_apos he with h | h | h
          · exact ha h
          · exact hs1 h
          · exact hs2 h
        · subst h2
          decide
      · subst h1
        decide
    · intro c hc
      rcases mem_finishClean hc with h1 | h1
      · rcases mem_coreNorm h1 with ⟨d, hd, rfl⟩ | h2
        · exact mapQuote_not_curly d
        · subst h2
          exact ⟨by decide, by decide, by decide, by decide⟩
      · subst h1
        exact ⟨by decide, by decide, by decide, by decide⟩
  show finishClean (coreNorm (finishClean (coreNorm l) M)) M =
    finishClean (coreNorm l) M
  rw [hcoreu]
  exact finishClean_fix hnorm1 hpunct hplen

/-- Structure eta for `String.mk`: the field of a literal is its argument. -/
theorem string_mk_data (l : List Char) : (String.mk l).data = l := rfl

/-- Unfolding lemma for `cleanText`, stated once so later proofs rewrite with
it instead of relying on definitional unfolding. -/
theorem cleanText_def (u : String) (K : Nat) :
    cleanText u K = ⟨cleanTextL u.data K⟩ := rfl

/-- C9 (amended): for every string `s` and length bound `maxLen` such that
`s` satisfies the output invariants of `clean` (length does not exceed
`maxLen` plus one trailing punctuation character, and `s` ends in terminal
punctuation when non-empty) AND `s` contains no apostrophe and no curly
single quote (the characters that can feed the garbage-token pass, which is
not idempotent across passes), re-cleaning is idempotent:
`cleanText (cleanText s maxLen) maxLen = cleanText s maxLen`. -/
theorem C9_amended_clean_idempotent :
    ∀ (s : String) (maxLen : Nat),
      s.data.length ≤ maxLen + 1 →
      (s.data ≠ [] → endsPunct s.data = true) →
      (∀ c ∈ s.data, c ≠ apos ∧ c ≠ lSingle ∧ c ≠ rSingle) →
      cleanText (cleanText s maxLen) maxLen = cleanText s maxLen := by
  intro s M h1 h2 h3
  calc cleanText (cleanText s M) M
      = cleanText ⟨cleanTextL s.data M⟩ M :=
        congrArg (fun u => cleanText u M) (cleanText_def s M)
    _ = ⟨cleanTextL (String.mk (cleanTextL s.data M)).data M⟩ :=
        cleanText_def ⟨cleanTextL s.data M⟩ M
    _ = ⟨cleanTextL (cleanTextL s.data M) M⟩ :=
        congrArg (fun l => (⟨cleanTextL l M⟩ : String))
          (string_mk_data (cleanTextL s.data M))
    _ = ⟨cleanTextL s.data M⟩ :=
        congrArg String.mk (cleanTextL_idem s.data M h1 h2 h3)
    _ = cleanText s M := (cleanText_def s M).symm

/-- Witness for the amended C9 at a concrete already-clean string. -/
theorem C9_witness :
    ("Review the deployment checklist." : String).data.length ≤ 120 + 1 ∧
    endsPunct ("Review the deployment checklist." : String).data = true ∧
    cleanText (cleanText "Review the deployment checklist." 120) 120 =
      cleanText "Review the deployment checklist." 120 := by
  refine ⟨by decide, by decide, ?_⟩
  exact C9_amended_clean_idempotent "Review the deployment checklist." 120
    (by decide) (fun _ => by decide) (by decide)
